import Mathlib

/-!
Verification of the numble-solver core (`src/numble_solver.py`) against its
natural-language specification.

The Python program is shallowly embedded: the `Step` class becomes an
inductive tree, its methods become Lean functions on that tree, the
generator `operations` becomes a list-producing function, and the
recursive `solve` (which threads a mutable result set) becomes a function
threading an explicit, insertion-ordered, deduplicated result list.
Python integers are modelled by `ℤ`; Python `//` and `%` (floor division
and floor remainder) are modelled by `Int.fdiv` and `Int.fmod`.
-/

namespace Numble

/-- The four operator kinds of the solver (`+`, `-`, `×`, `÷`). -/
inductive Opr where
  | add
  | sub
  | mul
  | div
deriving DecidableEq, Repr

/-- The glyph the source uses for each operator (`'+'`, `'-'`, `'×'`, `'÷'`). -/
def Opr.glyph : Opr → String
  | .add => "+"
  | .sub => "-"
  | .mul => "×"
  | .div => "÷"

/-- Embedding of the Python `Step` class: a step is either a bare number
(`left`/`op`/`right` all `None`) or a number together with the binary
calculation that produced it.  No partial states exist in the source
(all call sites pass either no calculation or a complete one). -/
inductive Step where
  | num (value : ℤ)
  | node (value : ℤ) (left : Step) (op : Opr) (right : Step)
deriving DecidableEq, Repr

namespace Step

/-- The `value` attribute. -/
def value : Step → ℤ
  | .num v => v
  | .node v _ _ _ => v

/-- The `op` attribute (`None` on a bare number). -/
def opOf : Step → Option Opr
  | .num _ => none
  | .node _ _ o _ => o

/-- Mirror of `Step.__len__`: the number of leaves (original numbers) in the step. -/
def len : Step → ℕ
  | .num _ => 1
  | .node _ l _ r => l.len + r.len

/-- Mirror of `Step.operations`: the number of each operation in the step, as the
4-tuple `(divisions, multiplications, subtractions, additions)`. -/
def operationsProfile : Step → ℕ × ℕ × ℕ × ℕ
  | .num _ => (0, 0, 0, 0)
  | .node _ l o r =>
    let pl := l.operationsProfile
    let pr := r.operationsProfile
    let d := pl.1 + pr.1
    let m := pl.2.1 + pr.2.1
    let s := pl.2.2.1 + pr.2.2.1
    let a := pl.2.2.2 + pr.2.2.2
    match o with
    | .add => (d, m, s, a + 1)
    | .sub => (d, m, s + 1, a)
    | .mul => (d, m + 1, s, a)
    | .div => (d + 1, m, s, a)

/-- Python's lexicographic `<` on the 4-tuples returned by
`Step.operations`. -/
def tupLt : ℕ × ℕ × ℕ × ℕ → ℕ × ℕ × ℕ × ℕ → Bool
  | (d1, m1, s1, a1), (d2, m2, s2, a2) =>
    d1 < d2 || (d1 = d2 && (m1 < m2 || (m1 = m2 && (s1 < s2 || (s1 = s2 && a1 < a2)))))

/-- Mirror of `Step.__lt__`: compare by value, then by length (leaf count), then by
the operations 4-tuple, lexicographically. -/
def lt (s other : Step) : Bool :=
  if s.value ≠ other.value then s.value < other.value
  else if s.len ≠ other.len then s.len < other.len
  else tupLt s.operationsProfile other.operationsProfile

/-- Mirror of `Step.__init__` followed by `Step._normalize`: building an internal
step swaps the children of a commutative (`+`/`×`) step when
`left < right`. -/
def make (v : ℤ) (l : Step) (o : Opr) (r : Step) : Step :=
  if (o = .add ∨ o = .mul) ∧ lt l r then .node v r o l else .node v l o r

/-- Mirror of `Step.__add__`. -/
def addStep (s other : Step) : Step :=
  make (s.value + other.value) s .add other

/-- Mirror of `Step.__sub__`. -/
def subStep (s other : Step) : Step :=
  make (s.value - other.value) s .sub other

/-- Mirror of `Step.__mul__`. -/
def mulStep (s other : Step) : Step :=
  make (s.value * other.value) s .mul other

/-- Mirror of `Step.__truediv__` (the source computes `self.value // other.value`,
Python floor division, modelled by `Int.fdiv`). -/
def divStep (s other : Step) : Step :=
  make (Int.fdiv s.value other.value) s .div other

/-- The left-parenthesization test of `Step.__str__`: parenthesize the
left substring when the left child's operator is additive and the node's
operator is multiplicative. -/
def parenLeft (l : Step) (o : Opr) : Bool :=
  (l.opOf = some .add || l.opOf = some .sub) && (o = .mul || o = .div)

/-- The right-parenthesization test of `Step.__str__`: parenthesize the
right substring when the operator is `÷` and the right child is internal,
or when the operator is `×` or `-` and the right child's operator is
additive. -/
def parenRight (o : Opr) (r : Step) : Bool :=
  (o = .div && !(r.opOf = none)) ||
    ((o = .mul || o = .sub) && (r.opOf = some .add || r.opOf = some .sub))

/-- Mirror of `Step.__str__`: convert to a string using as few parentheses as
possible. -/
def render : Step → String
  | .num v => toString v
  | .node _ l o r =>
    let ls := l.render
    let ls := if parenLeft l o then "(" ++ ls ++ ")" else ls
    let rs := r.render
    let rs := if parenRight o r then "(" ++ rs ++ ")" else rs
    ls ++ " " ++ o.glyph ++ " " ++ rs

end Step

/-- The tokens of the rendered infix string: integer literals, the four
operator glyphs, and parentheses. -/
inductive Tok where
  | num (v : ℤ)
  | plus
  | minus
  | times
  | divide
  | lparen
  | rparen
deriving DecidableEq, Repr

/-- The token corresponding to an operator glyph. -/
def Opr.tok : Opr → Tok
  | .add => .plus
  | .sub => .minus
  | .mul => .times
  | .div => .divide

/-- Mirror of `Step.__str__` at the token level: the token string of the rendered
infix expression, with exactly the parentheses `Step.__str__` inserts. -/
def Step.tokens : Step → List Tok
  | .num v => [.num v]
  | .node _ l o r =>
    let lts := l.tokens
    let lts := if Step.parenLeft l o then [Tok.lparen] ++ lts ++ [Tok.rparen] else lts
    let rts := r.tokens
    let rts := if Step.parenRight o r then [Tok.lparen] ++ rts ++ [Tok.rparen] else rts
    lts ++ [o.tok] ++ rts

/-- Mirror of `itertools.combinations(numbers, 2)`: all pairs of entries at
positions `i < j`, in the source's order. -/
def combinations2 {α : Type} : List α → List (α × α)
  | [] => []
  | x :: xs => xs.map (fun y => (x, y)) ++ combinations2 xs

/-- Each entry of a list paired with the list of the remaining entries
(in their original order); helper for `permutations2`. -/
def removeEach {α : Type} : List α → List (α × List α)
  | [] => []
  | x :: xs => (x, xs) :: (removeEach xs).map (fun p => (p.1, x :: p.2))

/-- Mirror of `itertools.permutations(numbers, 2)`: all pairs of entries at
distinct positions, both orders, in the source's order. -/
def permutations2 {α : Type} (l : List α) : List (α × α) :=
  (removeEach l).flatMap (fun p => p.2.map (fun y => (p.1, y)))

/-- The `operations` generator: the possible operations between all the
`Step`s in a list, in yield order.  An addition for every combination
pair; a multiplication for every combination pair where neither value is
`1`; a subtraction for every permutation pair with `left.value >
right.value`; a division for every permutation pair with `right.value ≠
1` and `left.value % right.value == 0` (Python `%` modelled by
`Int.fmod`). -/
def operations (numbers : List Step) : List Step :=
  (combinations2 numbers).flatMap (fun p =>
    [p.1.addStep p.2] ++
      (if p.1.value ≠ 1 ∧ p.2.value ≠ 1 then [p.1.mulStep p.2] else [])) ++
  (permutations2 numbers).flatMap (fun p =>
    (if p.1.value > p.2.value then [p.1.subStep p.2] else []) ++
      (if p.2.value ≠ 1 ∧ Int.fmod p.1.value p.2.value = 0 then [p.1.divStep p.2] else []))

/-- Mirror of `set.add` on the result set, modelled as an insertion-ordered
deduplicated list: membership is Python `==`, i.e. structural equality. -/
def addResult (results : List Step) (s : Step) : List Step :=
  if s ∈ results then results else results ++ [s]

/-- The reduced list passed to the recursive call in `solve`:
`numbers + [replacement]` with `replacement.left` and then
`replacement.right` removed (`list.remove` deletes the first equal
entry). -/
def reduce (numbers : List Step) (l r c : Step) : List Step :=
  ((numbers ++ [c]).erase l).erase r

/-- The recursive `solve`, with an explicit fuel argument in place of
Python's unbounded recursion (adequate fuel is proven below: each
recursive call works on a list one entry shorter).  The loop records a
replacement equal to the target and otherwise recurses on the reduced
list.  A bare-number replacement would raise `ValueError` in the
source; that branch is proven unreachable (`operations` only yields
internal steps). -/
def solveFuel : ℕ → ℤ → List Step → List Step → List Step
  | 0, _, _, results => results
  | f + 1, target, numbers, results =>
    (operations numbers).foldl
      (fun res c =>
        if c.value = target then addResult res c
        else match c with
          | .num _ => res
          | .node v l o r => solveFuel f target (reduce numbers l r (.node v l o r)) res)
      results

/-- The `for replacement in operations(numbers)` loop of `solve`, over
an arbitrary remaining candidate list. -/
def solveGo (f : ℕ) (target : ℤ) (numbers cs results : List Step) : List Step :=
  cs.foldl
    (fun res c =>
      if c.value = target then addResult res c
      else match c with
        | .num _ => res
        | .node v l o r => solveFuel f target (reduce numbers l r (.node v l o r)) res)
    results

theorem solveFuel_succ (f : ℕ) (target : ℤ) (numbers results : List Step) :
    solveFuel (f + 1) target numbers results =
      solveGo f target numbers (operations numbers) results := rfl

theorem solveGo_nil (f : ℕ) (target : ℤ) (numbers results : List Step) :
    solveGo f target numbers [] results = results := rfl

theorem solveGo_cons (f : ℕ) (target : ℤ) (numbers : List Step) (c : Step)
    (cs results : List Step) :
    solveGo f target numbers (c :: cs) results =
      solveGo f target numbers cs
        (if c.value = target then addResult results c
          else match c with
            | .num _ => results
            | .node v l o r =>
              solveFuel f target (reduce numbers l r (.node v l o r)) results) := by
  unfold solveGo
  rw [List.foldl_cons]

/-- Embedding of `solve` at its canonical fuel (the length of the working list, which
is proven sufficient). -/
def solveTop (target : ℤ) (numbers : List Step) : List Step :=
  solveFuel numbers.length target numbers []

/-- The non-strict order Python's `sorted` sorts ascending by:
`a` may come before `b` unless `b < a` under `Step.__lt__`. -/
def stepLe (a b : Step) : Bool := !Step.lt b a

/-- Ordered insertion of a step before the first entry it is `stepLe`-
below-or-tied-with; keeps earlier entries first among ties. -/
def insertStep : Step → List Step → List Step
  | s, [] => [s]
  | s, x :: xs => if stepLe s x then s :: x :: xs else x :: insertStep s xs

/-- Python's `sorted`: a stable ascending sort by `Step.__lt__`
(insertion sort; any stable sort computes the same list). -/
def sortResults (results : List Step) : List Step :=
  results.foldr insertStep []

/-- Mirror of `solve_puzzle`: return the bare target if it is among the numbers;
otherwise run the search from the leaf steps and return the first
element of the sorted result set, or `None` if the set is empty. -/
def solvePuzzle (target : ℤ) (numbers : List ℤ) : Option Step :=
  if target ∈ numbers then some (.num target)
  else
    (sortResults (solveTop target (numbers.map Step.num))).head?

/-- Modelled from the spec: the SearchEngine variant of §4.4 that, for a
candidate equal to the target, records it and still recurses into the
reduced multiset ("Regardless of match, recurse into the reduced
multiset ... the search does not stop at the first hit").  Everything
else is as in `solveFuel`. -/
def solveSpecFuel : ℕ → ℤ → List Step → List Step → List Step
  | 0, _, _, results => results
  | f + 1, target, numbers, results =>
    (operations numbers).foldl
      (fun res c =>
        match c with
        | .num _ => res
        | .node v l o r =>
          solveSpecFuel f target (reduce numbers l r (.node v l o r))
            (if (Step.node v l o r).value = target then addResult res (.node v l o r)
              else res))
      results

/-- The spec-modelled engine at canonical fuel. -/
def solveSpecTop (target : ℤ) (numbers : List Step) : List Step :=
  solveSpecFuel numbers.length target numbers []

/-- The recursion depth (in nested-call edges) that `solve` actually
uses: `0` when no recursive call is made, otherwise one more than the
deepest recursion among the non-matching candidates. -/
def depthFuel : ℕ → ℤ → List Step → ℕ
  | 0, _, _ => 0
  | f + 1, target, numbers =>
    (operations numbers).foldl
      (fun acc c =>
        if c.value = target then acc
        else match c with
          | .num _ => acc
          | .node v l o r =>
            max acc (1 + depthFuel f target (reduce numbers l r (.node v l o r))))
      0

/-- The loop of `depthFuel`, over an arbitrary remaining candidate list
and accumulated maximum. -/
def depthGo (f : ℕ) (target : ℤ) (numbers cs : List Step) (acc : ℕ) : ℕ :=
  cs.foldl
    (fun acc c =>
      if c.value = target then acc
      else match c with
        | .num _ => acc
        | .node v l o r =>
          max acc (1 + depthFuel f target (reduce numbers l r (.node v l o r))))
    acc

/-! ### Standard-precedence evaluation of token strings

The claim "evaluating the rendered infix string under standard operator
precedence yields the target" is formalised with a deterministic
operator-precedence (shunting-yard) evaluator over the token string:
`×`/`÷` bind tighter than `+`/`-`, all four associate to the left,
parentheses group, and `÷` is exact integer division (evaluation fails
on a zero divisor or a nonzero remainder). -/

/-- A pending item on the operator stack of the evaluator: a binary
operator awaiting its right operand, or an open parenthesis. -/
inductive StkOp where
  | op (o : Opr)
  | mark
deriving DecidableEq, Repr

/-- Standard precedence: `×`/`÷` bind tighter than `+`/`-`. -/
def prec : Opr → ℕ
  | .add => 1
  | .sub => 1
  | .mul => 2
  | .div => 2

/-- Standard integer semantics of one operator, with `÷` as exact
integer division: defined only for a nonzero divisor dividing exactly. -/
def applyO : Opr → ℤ → ℤ → Option ℤ
  | .add, a, b => some (a + b)
  | .sub, a, b => some (a - b)
  | .mul, a, b => some (a * b)
  | .div, a, b => if b ≠ 0 ∧ b ∣ a then some (a / b) else none

/-- Evaluator state: the value stack and the pending-operator stack. -/
abbrev EvalSt := List ℤ × List StkOp

/-- Pop-and-apply pending operators of precedence at least `k` (stopping
at an open parenthesis); left-associativity of all four operators. -/
def flushGe (k : ℕ) : List ℤ → List StkOp → Option EvalSt
  | ns, [] => some (ns, [])
  | ns, .mark :: ops => some (ns, .mark :: ops)
  | ns, .op o :: ops =>
    if prec o ≥ k then
      match ns with
      | b :: a :: rest => (applyO o a b).bind (fun v => flushGe k (v :: rest) ops)
      | _ => none
    else some (ns, .op o :: ops)

/-- Process one token: push a number; push an open parenthesis; on an
operator, first apply all pending operators of precedence at least its
own, then push it; on a close parenthesis, apply all pending operators
down to the matching open parenthesis and discard it. -/
def evalStep (st : EvalSt) : Tok → Option EvalSt
  | .num v => some (v :: st.1, st.2)
  | .lparen => some (st.1, .mark :: st.2)
  | .rparen =>
    (flushGe 1 st.1 st.2).bind fun st' =>
      match st' with
      | (ns, .mark :: ops) => some (ns, ops)
      | _ => none
  | .plus => (flushGe 1 st.1 st.2).map fun st' => (st'.1, .op .add :: st'.2)
  | .minus => (flushGe 1 st.1 st.2).map fun st' => (st'.1, .op .sub :: st'.2)
  | .times => (flushGe 2 st.1 st.2).map fun st' => (st'.1, .op .mul :: st'.2)
  | .divide => (flushGe 2 st.1 st.2).map fun st' => (st'.1, .op .div :: st'.2)

/-- Process a token string from a given state. -/
def consume : List Tok → EvalSt → Option EvalSt
  | [], st => some st
  | t :: ts, st => (evalStep st t).bind (consume ts)

/-- Evaluate a token string under standard operator precedence: process
every token from the empty state, apply the remaining pending operators,
and require exactly one value and no pending operator to remain. -/
def evalToks (ts : List Tok) : Option ℤ :=
  (consume ts ([], [])).bind fun st =>
    (flushGe 1 st.1 st.2).bind fun st' =>
      match st' with
      | ([v], []) => some v
      | _ => none

/-! ### Invariant predicates -/

/-- The arithmetic the `Step` operator methods perform (`+`, `-`, `*`,
and Python `//`, i.e. `Int.fdiv`). -/
def applyCode : Opr → ℤ → ℤ → ℤ
  | .add, a, b => a + b
  | .sub, a, b => a - b
  | .mul, a, b => a * b
  | .div, a, b => Int.fdiv a b

/-- Value-consistency: every internal step's value is the result of
applying its operator to its children's values, recursively. -/
def Consistent : Step → Prop
  | .num _ => True
  | .node v l o r => v = applyCode o l.value r.value ∧ Consistent l ∧ Consistent r

instance : DecidablePred Consistent := fun s =>
  match s with
  | .num _ => by unfold Consistent; infer_instance
  | .node v l o r =>
    have : Decidable (Consistent l) := instDecidablePredStepConsistent l
    have : Decidable (Consistent r) := instDecidablePredStepConsistent r
    by unfold Consistent; infer_instance

/-- The guard the generator establishes for each operator: subtractions
have `left.value > right.value`, divisions have `right.value ≠ 1` and
exact divisibility. -/
def oprGuard : Opr → Step → Step → Prop
  | .add, _, _ => True
  | .mul, _, _ => True
  | .sub, l, r => r.value < l.value
  | .div, l, r => r.value ≠ 1 ∧ r.value ∣ l.value

/-- Full structural validity of a step built by the solver from positive
inputs: positive leaves, value-consistency, and the generator guards. -/
def Valid : Step → Prop
  | .num v => 0 < v
  | .node v l o r =>
    Valid l ∧ Valid r ∧ v = applyCode o l.value r.value ∧ oprGuard o l r

instance : DecidablePred Valid := fun s =>
  match s with
  | .num _ => by unfold Valid; infer_instance
  | .node v l o r =>
    have : Decidable (Valid l) := instDecidablePredStepValid l
    have : Decidable (Valid r) := instDecidablePredStepValid r
    by unfold Valid; cases o <;> { unfold oprGuard; infer_instance }

/-- Every step of a working list is valid. -/
def AllValid (numbers : List Step) : Prop := ∀ s ∈ numbers, Valid s

/-! ### Basic facts about steps -/

theorem Step.value_make (v : ℤ) (l : Step) (o : Opr) (r : Step) :
    (Step.make v l o r).value = v := by
  unfold Step.make
  split <;> rfl

theorem Step.one_le_len (s : Step) : 1 ≤ s.len := by
  induction s with
  | num v => simp [Step.len]
  | node v l o r ihl ihr => simp [Step.len]; omega

theorem Step.len_make (v : ℤ) (l : Step) (o : Opr) (r : Step) :
    (Step.make v l o r).len = l.len + r.len := by
  unfold Step.make
  split
  · simp [Step.len]
    omega
  · simp [Step.len]

/-- A step is never equal to either child of a `make` it is an operand
of: the leaf counts differ. -/
theorem Step.make_ne_left (v : ℤ) (l : Step) (o : Opr) (r : Step) :
    Step.make v l o r ≠ l := by
  intro h
  have h1 := congrArg Step.len h
  rw [Step.len_make] at h1
  have := Step.one_le_len r
  omega

theorem Step.make_ne_right (v : ℤ) (l : Step) (o : Opr) (r : Step) :
    Step.make v l o r ≠ r := by
  intro h
  have h1 := congrArg Step.len h
  rw [Step.len_make] at h1
  have := Step.one_le_len l
  omega

/-- Building with a non-commutative operator never swaps. -/
theorem Step.make_sub (v : ℤ) (l r : Step) :
    Step.make v l .sub r = .node v l .sub r := by
  unfold Step.make
  rw [if_neg]
  rintro ⟨h, -⟩
  rcases h with h | h <;> exact Opr.noConfusion h

theorem Step.make_div (v : ℤ) (l r : Step) :
    Step.make v l .div r = .node v l .div r := by
  unfold Step.make
  rw [if_neg]
  rintro ⟨h, -⟩
  rcases h with h | h <;> exact Opr.noConfusion h

/-- Construction yields the unswapped or the swapped node. -/
theorem Step.make_cases (v : ℤ) (l : Step) (o : Opr) (r : Step) :
    Step.make v l o r = .node v l o r ∨ Step.make v l o r = .node v r o l := by
  unfold Step.make
  split
  · exact Or.inr rfl
  · exact Or.inl rfl

/-- Every valid step has a positive value. -/
theorem Valid.pos {s : Step} (h : Valid s) : 0 < s.value := by
  induction s with
  | num v => exact h
  | node v l o r ihl ihr =>
    obtain ⟨hl, hr, hv, hg⟩ := h
    have pl := ihl hl
    have pr := ihr hr
    subst hv
    cases o with
    | add => exact add_pos pl pr
    | sub => exact sub_pos.mpr hg
    | mul => exact mul_pos pl pr
    | div =>
      obtain ⟨-, hdvd⟩ := hg
      show 0 < Int.fdiv l.value r.value
      rw [Int.fdiv_eq_ediv _ (le_of_lt pr)]
      obtain ⟨k, hk⟩ := hdvd
      rw [hk, Int.mul_ediv_cancel_left _ (ne_of_gt pr)]
      by_contra hk0
      push_neg at hk0
      have : r.value * k ≤ 0 := mul_nonpos_of_nonneg_of_nonpos (le_of_lt pr) hk0
      rw [← hk] at this
      omega

/-! ### Membership facts for the pair generators -/

/-- A pair is produced by `combinations2` exactly when its components
occupy two positions of the list, first component strictly earlier. -/
theorem mem_combinations2 {α : Type} (l : List α) (a b : α) :
    (a, b) ∈ combinations2 l ↔ ∃ l1 l2 l3, l = l1 ++ a :: (l2 ++ b :: l3) := by
  induction l with
  | nil =>
    constructor
    · intro h
      exact absurd h (by simp [combinations2])
    · rintro ⟨l1, l2, l3, h⟩
      cases l1 <;> simp_all
  | cons x xs ih =>
    simp only [combinations2, List.mem_append]
    constructor
    · intro h
      rcases h with h | h
      · rcases List.mem_map.mp h with ⟨y, hy, he⟩
        have h1 : x = a := congrArg Prod.fst he
        have h2 : y = b := congrArg Prod.snd he
        subst h1
        subst h2
        rcases List.append_of_mem hy with ⟨l2, l3, rfl⟩
        exact ⟨[], l2, l3, rfl⟩
      · rcases ih.mp h with ⟨l1, l2, l3, rfl⟩
        exact ⟨x :: l1, l2, l3, rfl⟩
    · rintro ⟨l1, l2, l3, he⟩
      cases l1 with
      | nil =>
        injection he with h1 h2
        subst h1
        subst h2
        exact Or.inl (List.mem_map.mpr ⟨b, by simp, rfl⟩)
      | cons z l1 =>
        injection he with h1 h2
        subst h1
        subst h2
        exact Or.inr (ih.mpr ⟨l1, l2, l3, rfl⟩)

/-- Characterisation of `removeEach`: each entry together with the rest
of the list. -/
theorem mem_removeEach {α : Type} (l : List α) (x : α) (rest : List α) :
    (x, rest) ∈ removeEach l ↔ ∃ l1 l2, l = l1 ++ x :: l2 ∧ rest = l1 ++ l2 := by
  induction l generalizing rest with
  | nil =>
    constructor
    · intro h
      exact absurd h (by simp [removeEach])
    · rintro ⟨l1, l2, h, -⟩
      cases l1 <;> simp_all
  | cons y ys ih =>
    simp only [removeEach, List.mem_cons]
    constructor
    · intro h
      rcases h with he | he
      · have h1 : x = y := congrArg Prod.fst he
        have h2 : rest = ys := congrArg Prod.snd he
        subst h1
        exact ⟨[], ys, rfl, by simpa using h2⟩
      · rcases List.mem_map.mp he with ⟨⟨p1, p2⟩, hp, hpe⟩
        have h1 : p1 = x := congrArg Prod.fst hpe
        have h2 : y :: p2 = rest := congrArg Prod.snd hpe
        subst h1
        subst h2
        rcases (ih p2).mp hp with ⟨l1, l2, rfl, rfl⟩
        exact ⟨y :: l1, l2, rfl, rfl⟩
    · rintro ⟨l1, l2, he, hr⟩
      cases l1 with
      | nil =>
        injection he with h1 h2
        subst h1
        subst h2
        subst hr
        exact Or.inl (by simp)
      | cons z l1 =>
        injection he with h1 h2
        subst h1
        subst hr
        exact Or.inr (List.mem_map.mpr
          ⟨(x, l1 ++ l2), (ih (l1 ++ l2)).mpr ⟨l1, l2, h2, rfl⟩, rfl⟩)

/-- A pair is produced by `permutations2` exactly when its components
occupy two distinct positions of the list, in either relative order. -/
theorem mem_permutations2 {α : Type} (l : List α) (a b : α) :
    (a, b) ∈ permutations2 l ↔
      (∃ l1 l2 l3, l = l1 ++ a :: (l2 ++ b :: l3)) ∨
        (∃ l1 l2 l3, l = l1 ++ b :: (l2 ++ a :: l3)) := by
  unfold permutations2
  rw [List.mem_flatMap]
  constructor
  · rintro ⟨⟨x, rest⟩, hmem, hy⟩
    rcases List.mem_map.mp hy with ⟨y, hym, he⟩
    have h1 : x = a := congrArg Prod.fst he
    have h2 : y = b := congrArg Prod.snd he
    subst h1
    subst h2
    rcases (mem_removeEach _ _ _).mp hmem with ⟨l1, l2, rfl, rfl⟩
    rcases List.mem_append.mp hym with hb | hb
    · rcases List.append_of_mem hb with ⟨m1, m2, rfl⟩
      exact Or.inr ⟨m1, m2, l2, by simp⟩
    · rcases List.append_of_mem hb with ⟨m1, m2, rfl⟩
      exact Or.inl ⟨l1, m1, m2, rfl⟩
  · rintro (⟨l1, l2, l3, rfl⟩ | ⟨l1, l2, l3, rfl⟩)
    · exact ⟨(a, l1 ++ (l2 ++ b :: l3)),
        (mem_removeEach _ _ _).mpr ⟨l1, l2 ++ b :: l3, rfl, rfl⟩,
        List.mem_map.mpr ⟨b, by simp, rfl⟩⟩
    · exact ⟨(a, (l1 ++ b :: l2) ++ l3),
        (mem_removeEach _ _ _).mpr ⟨l1 ++ b :: l2, l3, by simp, rfl⟩,
        List.mem_map.mpr ⟨b, by simp, rfl⟩⟩

/-- Two entries at distinct positions decompose the list as a multiset:
used to prove the reduced list removes exactly those two entries. -/
theorem multiset_decomp_of_split {α : Type} (l l1 l2 l3 : List α) (a b : α)
    (h : l = l1 ++ a :: (l2 ++ b :: l3)) :
    ∃ rest : Multiset α, (l : Multiset α) = a ::ₘ b ::ₘ rest := by
  subst h
  refine ⟨((l1 ++ l2 ++ l3 : List α) : Multiset α), ?_⟩
  rw [Multiset.cons_coe, Multiset.cons_coe, Multiset.coe_eq_coe]
  refine List.Perm.trans List.perm_middle ?_
  refine List.Perm.cons a ?_
  rw [← List.append_assoc]
  exact List.perm_middle

/-! ### Membership characterisation of the `operations` generator -/

theorem mem_if_singleton {α : Type} (P : Prop) [Decidable P] (x b : α) :
    (x ∈ if P then [b] else []) ↔ P ∧ x = b := by
  split <;> simp_all

/-- Exactly which steps the generator yields, per source pair. -/
theorem mem_operations (numbers : List Step) (c : Step) :
    c ∈ operations numbers ↔
      (∃ p ∈ combinations2 numbers,
        c = p.1.addStep p.2 ∨
          ((p.1.value ≠ 1 ∧ p.2.value ≠ 1) ∧ c = p.1.mulStep p.2)) ∨
      (∃ p ∈ permutations2 numbers,
        (p.2.value < p.1.value ∧ c = p.1.subStep p.2) ∨
          ((p.2.value ≠ 1 ∧ Int.fmod p.1.value p.2.value = 0) ∧ c = p.1.divStep p.2)) := by
  unfold operations
  simp only [List.mem_append, List.mem_flatMap, List.singleton_append, List.mem_cons,
    mem_if_singleton, gt_iff_lt, List.not_mem_nil, or_false]

theorem comb2_mem {α : Type} {l : List α} {a b : α} (h : (a, b) ∈ combinations2 l) :
    a ∈ l ∧ b ∈ l := by
  rcases (mem_combinations2 _ _ _).mp h with ⟨l1, l2, l3, rfl⟩
  constructor <;> simp

theorem perm2_mem {α : Type} {l : List α} {a b : α} (h : (a, b) ∈ permutations2 l) :
    a ∈ l ∧ b ∈ l := by
  rcases (mem_permutations2 _ _ _).mp h with ⟨l1, l2, l3, rfl⟩ | ⟨l1, l2, l3, rfl⟩ <;>
    constructor <;> simp

/-- Operand pairs of the generator decompose the working list as a
multiset. -/
theorem comb2_decomp {α : Type} {l : List α} {a b : α} (h : (a, b) ∈ combinations2 l) :
    ∃ rest : Multiset α, (l : Multiset α) = a ::ₘ b ::ₘ rest := by
  rcases (mem_combinations2 _ _ _).mp h with ⟨l1, l2, l3, he⟩
  exact multiset_decomp_of_split _ _ _ _ _ _ he

theorem perm2_decomp {α : Type} {l : List α} {a b : α} (h : (a, b) ∈ permutations2 l) :
    ∃ rest : Multiset α, (l : Multiset α) = a ::ₘ b ::ₘ rest := by
  rcases (mem_permutations2 _ _ _).mp h with ⟨l1, l2, l3, he⟩ | ⟨l1, l2, l3, he⟩
  · exact multiset_decomp_of_split _ _ _ _ _ _ he
  · rcases multiset_decomp_of_split _ _ _ _ _ _ he with ⟨rest, hr⟩
    exact ⟨rest, by rw [hr, Multiset.cons_swap]⟩

/-- Every generated step is an internal node whose two children occupy
two distinct entries of the working list. -/
theorem operations_shape {numbers : List Step} {c : Step} (h : c ∈ operations numbers) :
    ∃ v l o r, c = .node v l o r ∧
      ∃ rest : Multiset Step, (numbers : Multiset Step) = l ::ₘ r ::ₘ rest := by
  rcases (mem_operations _ _).mp h with ⟨p, hp, hc | ⟨-, hc⟩⟩ | ⟨p, hp, ⟨-, hc⟩ | ⟨-, hc⟩⟩ <;>
    subst hc
  case _ =>
    rcases comb2_decomp hp with ⟨rest, hr⟩
    rcases Step.make_cases (p.1.value + p.2.value) p.1 .add p.2 with hm | hm <;>
      rw [Step.addStep, hm]
    · exact ⟨_, _, _, _, rfl, rest, hr⟩
    · exact ⟨_, _, _, _, rfl, rest, by rw [hr, Multiset.cons_swap]⟩
  case _ =>
    rcases comb2_decomp hp with ⟨rest, hr⟩
    rcases Step.make_cases (p.1.value * p.2.value) p.1 .mul p.2 with hm | hm <;>
      rw [Step.mulStep, hm]
    · exact ⟨_, _, _, _, rfl, rest, hr⟩
    · exact ⟨_, _, _, _, rfl, rest, by rw [hr, Multiset.cons_swap]⟩
  case _ =>
    rcases perm2_decomp hp with ⟨rest, hr⟩
    rw [Step.subStep, Step.make_sub]
    exact ⟨_, _, _, _, rfl, rest, hr⟩
  case _ =>
    rcases perm2_decomp hp with ⟨rest, hr⟩
    rw [Step.divStep, Step.make_div]
    exact ⟨_, _, _, _, rfl, rest, hr⟩

/-! ### Validity and consistency of generated steps -/

theorem Step.value_addStep (a b : Step) : (a.addStep b).value = a.value + b.value :=
  Step.value_make ..

theorem Step.value_subStep (a b : Step) : (a.subStep b).value = a.value - b.value :=
  Step.value_make ..

theorem Step.value_mulStep (a b : Step) : (a.mulStep b).value = a.value * b.value :=
  Step.value_make ..

theorem Step.value_divStep (a b : Step) : (a.divStep b).value = Int.fdiv a.value b.value :=
  Step.value_make ..

/-- Every step the generator yields from a valid working list is valid. -/
theorem operations_valid {numbers : List Step} (hv : AllValid numbers) :
    ∀ c ∈ operations numbers, Valid c := by
  intro c h
  rcases (mem_operations _ _).mp h with
    ⟨p, hp, hc | ⟨⟨h1, h2⟩, hc⟩⟩ | ⟨p, hp, ⟨hlt, hc⟩ | ⟨⟨h1, h2⟩, hc⟩⟩ <;> subst hc
  · obtain ⟨m1, m2⟩ := comb2_mem hp
    rcases Step.make_cases (p.1.value + p.2.value) p.1 .add p.2 with hm | hm <;>
      rw [Step.addStep, hm]
    · exact ⟨hv _ m1, hv _ m2, rfl, trivial⟩
    · exact ⟨hv _ m2, hv _ m1, add_comm .., trivial⟩
  · obtain ⟨m1, m2⟩ := comb2_mem hp
    rcases Step.make_cases (p.1.value * p.2.value) p.1 .mul p.2 with hm | hm <;>
      rw [Step.mulStep, hm]
    · exact ⟨hv _ m1, hv _ m2, rfl, trivial⟩
    · exact ⟨hv _ m2, hv _ m1, mul_comm .., trivial⟩
  · obtain ⟨m1, m2⟩ := perm2_mem hp
    rw [Step.subStep, Step.make_sub]
    exact ⟨hv _ m1, hv _ m2, rfl, hlt⟩
  · obtain ⟨m1, m2⟩ := perm2_mem hp
    rw [Step.divStep, Step.make_div]
    have hpos : 0 < p.2.value := (hv _ m2).pos
    refine ⟨hv _ m1, hv _ m2, rfl, ?_, ?_⟩
    · exact h1
    · exact Int.dvd_of_emod_eq_zero ((Int.fmod_eq_emod _ (le_of_lt hpos)) ▸ h2)

/-- Every step the generator yields from a value-consistent working list
is value-consistent (no positivity or guard assumptions needed). -/
theorem operations_consistent {numbers : List Step}
    (hv : ∀ s ∈ numbers, Consistent s) :
    ∀ c ∈ operations numbers, Consistent c := by
  intro c h
  rcases (mem_operations _ _).mp h with
    ⟨p, hp, hc | ⟨-, hc⟩⟩ | ⟨p, hp, ⟨-, hc⟩ | ⟨-, hc⟩⟩ <;> subst hc
  · obtain ⟨m1, m2⟩ := comb2_mem hp
    rcases Step.make_cases (p.1.value + p.2.value) p.1 .add p.2 with hm | hm <;>
      rw [Step.addStep, hm]
    · exact ⟨rfl, hv _ m1, hv _ m2⟩
    · exact ⟨add_comm .., hv _ m2, hv _ m1⟩
  · obtain ⟨m1, m2⟩ := comb2_mem hp
    rcases Step.make_cases (p.1.value * p.2.value) p.1 .mul p.2 with hm | hm <;>
      rw [Step.mulStep, hm]
    · exact ⟨rfl, hv _ m1, hv _ m2⟩
    · exact ⟨mul_comm .., hv _ m2, hv _ m1⟩
  · obtain ⟨m1, m2⟩ := perm2_mem hp
    rw [Step.subStep, Step.make_sub]
    exact ⟨rfl, hv _ m1, hv _ m2⟩
  · obtain ⟨m1, m2⟩ := perm2_mem hp
    rw [Step.divStep, Step.make_div]
    exact ⟨rfl, hv _ m1, hv _ m2⟩

/-- The children of a generated node are never the node itself (their
leaf counts are strictly smaller). -/
theorem operations_child_ne {c : Step} {v : ℤ} {l r : Step} {o : Opr}
    (hc : c = .node v l o r) : l ≠ c ∧ r ≠ c := by
  subst hc
  constructor <;> intro he <;>
    [have h1 := congrArg Step.len he; have h1 := congrArg Step.len he] <;>
    simp only [Step.len] at h1
  · have := Step.one_le_len r
    omega
  · have := Step.one_le_len l
    omega

/-- The reduced list of a search branch: the candidate's two children
each delete one entry of the working list (never the appended candidate
itself, whose leaf count is larger), and the candidate is appended; as a
multiset nothing else is added or removed. -/
theorem reduce_multiset {numbers : List Step} {c : Step} {v : ℤ} {l r : Step} {o : Opr}
    (hc : c = .node v l o r) {rest : Multiset Step}
    (hdec : (numbers : Multiset Step) = l ::ₘ r ::ₘ rest) :
    ((reduce numbers l r c : List Step) : Multiset Step) = c ::ₘ rest := by
  obtain ⟨hl, hr⟩ := operations_child_ne hc
  unfold reduce
  rw [← Multiset.coe_erase, ← Multiset.coe_erase, ← Multiset.coe_add,
    Multiset.coe_singleton]
  have h1 : (numbers : Multiset Step) + {c} = c ::ₘ (numbers : Multiset Step) := by
    rw [add_comm, Multiset.singleton_add]
  rw [h1, hdec, Multiset.erase_cons_tail _ (fun he => hl he.symm),
    Multiset.erase_cons_head, Multiset.erase_cons_tail _ (fun he => hr he.symm),
    Multiset.erase_cons_head]

/-- The reduced list is exactly one entry shorter than the working
list. -/
theorem reduce_length {numbers : List Step} {c : Step} {v : ℤ} {l r : Step} {o : Opr}
    (hc : c = .node v l o r) {rest : Multiset Step}
    (hdec : (numbers : Multiset Step) = l ::ₘ r ::ₘ rest) :
    (reduce numbers l r c).length = numbers.length - 1 := by
  have h1 := congrArg Multiset.card (reduce_multiset hc hdec)
  have h2 := congrArg Multiset.card hdec
  simp only [Multiset.coe_card, Multiset.card_cons] at h1 h2
  omega

/-- Working lists with at most one entry admit no operation. -/
theorem operations_short {numbers : List Step} (h : numbers.length ≤ 1) :
    operations numbers = [] := by
  match numbers, h with
  | [], _ => rfl
  | [x], _ => rfl

/-- If the generator yields anything, the working list has at least two
entries. -/
theorem two_le_of_mem_operations {numbers : List Step} {c : Step}
    (h : c ∈ operations numbers) : 2 ≤ numbers.length := by
  by_contra hlt
  push_neg at hlt
  rw [operations_short (by omega)] at h
  exact absurd h (List.not_mem_nil c)

/-! ### Membership in the accumulated result set -/

theorem mem_addResult (results : List Step) (c x : Step) :
    x ∈ addResult results c ↔ x ∈ results ∨ x = c := by
  unfold addResult
  split <;> rename_i h
  · constructor
    · exact Or.inl
    · rintro (hx | rfl)
      · exact hx
      · exact h
  · simp

/-- The accumulator is irrelevant to which further steps the search
records: a step is in the output exactly when it was already accumulated
or the same search from an empty accumulator records it. -/
theorem mem_solveGo_iff_of {f : ℕ}
    (hF : ∀ t ns res x, x ∈ solveFuel f t ns res ↔ x ∈ res ∨ x ∈ solveFuel f t ns []) :
    ∀ t ns cs res x, x ∈ solveGo f t ns cs res ↔ x ∈ res ∨ x ∈ solveGo f t ns cs [] := by
  intro t ns cs
  induction cs with
  | nil =>
    intro res x
    simp [solveGo]
  | cons c cs ih =>
    intro res x
    rcases c with v | ⟨v, l, o, r⟩
    · by_cases hv : (Step.num v).value = t
      · have e1 : ∀ rs, solveGo f t ns (.num v :: cs) rs =
            solveGo f t ns cs (addResult rs (.num v)) := by
          intro rs
          rw [solveGo_cons]
          simp [hv]
        rw [e1, e1, ih, ih (addResult [] (.num v)), mem_addResult, mem_addResult]
        simp only [List.not_mem_nil, false_or]
        tauto
      · have e1 : ∀ rs, solveGo f t ns (.num v :: cs) rs = solveGo f t ns cs rs := by
          intro rs
          rw [solveGo_cons]
          simp [hv]
        rw [e1, e1]
        exact ih res x
    · by_cases hv : (Step.node v l o r).value = t
      · have e1 : ∀ rs, solveGo f t ns (.node v l o r :: cs) rs =
            solveGo f t ns cs (addResult rs (.node v l o r)) := by
          intro rs
          rw [solveGo_cons]
          simp [hv]
        rw [e1, e1, ih, ih (addResult [] (.node v l o r)), mem_addResult, mem_addResult]
        simp only [List.not_mem_nil, false_or]
        tauto
      · have e1 : ∀ rs, solveGo f t ns (.node v l o r :: cs) rs =
            solveGo f t ns cs (solveFuel f t (reduce ns l r (.node v l o r)) rs) := by
          intro rs
          rw [solveGo_cons]
          simp [hv]
        rw [e1, e1, ih, ih (solveFuel f t (reduce ns l r (.node v l o r)) []),
          hF t (reduce ns l r (.node v l o r)) res x]
        tauto

theorem mem_solveFuel_iff :
    ∀ (f : ℕ) (t : ℤ) (ns res : List Step) (x : Step),
      x ∈ solveFuel f t ns res ↔ x ∈ res ∨ x ∈ solveFuel f t ns [] := by
  intro f
  induction f with
  | zero =>
    intro t ns res x
    simp [solveFuel]
  | succ f ih =>
    intro t ns res x
    rw [solveFuel_succ, solveFuel_succ]
    exact mem_solveGo_iff_of ih t ns (operations ns) res x

theorem mem_solveGo_iff {f : ℕ} (t : ℤ) (ns cs res : List Step) (x : Step) :
    x ∈ solveGo f t ns cs res ↔ x ∈ res ∨ x ∈ solveGo f t ns cs [] :=
  mem_solveGo_iff_of (mem_solveFuel_iff f) t ns cs res x

/-! ### Soundness of the search: everything recorded is a generated
step whose value equals the target, and generated-step invariants
propagate to every recursion level. -/

/-- Members of the reduced list come from the working list or are the
candidate itself. -/
theorem mem_reduce {numbers : List Step} {l r c s : Step}
    (hs : s ∈ reduce numbers l r c) : s ∈ numbers ∨ s = c := by
  have hs1 := List.mem_of_mem_erase (List.mem_of_mem_erase hs)
  rcases List.mem_append.mp hs1 with hs2 | hs2
  · exact Or.inl hs2
  · exact Or.inr (List.mem_singleton.mp hs2)

theorem solveGo_inv (P : Step → Prop) (f : ℕ)
    (ihF : ∀ (t : ℤ) (ns res : List Step) (x : Step), (∀ s ∈ ns, P s) →
      x ∈ solveFuel f t ns res → x ∈ res ∨ (P x ∧ x.value = t)) :
    ∀ (t : ℤ) (ns cs res : List Step) (x : Step), (∀ s ∈ ns, P s) → (∀ c ∈ cs, P c) →
      x ∈ solveGo f t ns cs res → x ∈ res ∨ (P x ∧ x.value = t) := by
  intro t ns cs
  induction cs with
  | nil =>
    intro res x _ _ hx
    exact Or.inl (by simpa [solveGo] using hx)
  | cons c cs ihcs =>
    intro res x hns hcs hx
    have hc : P c := hcs c (by simp)
    have hcs' : ∀ c' ∈ cs, P c' := fun c' hc' => hcs c' (by simp [hc'])
    rcases c with v | ⟨v, l, o, r⟩
    · by_cases hv : (Step.num v).value = t
      · rw [show solveGo f t ns (.num v :: cs) res =
            solveGo f t ns cs (addResult res (.num v)) by rw [solveGo_cons]; simp [hv]] at hx
        rcases ihcs _ x hns hcs' hx with hr | hgood
        · rcases (mem_addResult _ _ _).mp hr with hr | rfl
          · exact Or.inl hr
          · exact Or.inr ⟨hc, hv⟩
        · exact Or.inr hgood
      · rw [show solveGo f t ns (.num v :: cs) res = solveGo f t ns cs res
          by rw [solveGo_cons]; simp [hv]] at hx
        exact ihcs _ x hns hcs' hx
    · by_cases hv : (Step.node v l o r).value = t
      · rw [show solveGo f t ns (.node v l o r :: cs) res =
            solveGo f t ns cs (addResult res (.node v l o r))
            by rw [solveGo_cons]; simp [hv]] at hx
        rcases ihcs _ x hns hcs' hx with hr | hgood
        · rcases (mem_addResult _ _ _).mp hr with hr | rfl
          · exact Or.inl hr
          · exact Or.inr ⟨hc, hv⟩
        · exact Or.inr hgood
      · rw [show solveGo f t ns (.node v l o r :: cs) res =
            solveGo f t ns cs (solveFuel f t (reduce ns l r (.node v l o r)) res)
            by rw [solveGo_cons]; simp [hv]] at hx
        rcases ihcs _ x hns hcs' hx with hr | hgood
        · have hred : ∀ s ∈ reduce ns l r (.node v l o r), P s := by
            intro s hs
            rcases mem_reduce hs with hs2 | rfl
            · exact hns s hs2
            · exact hc
          exact ihF t (reduce ns l r (.node v l o r)) res x hred hr
        · exact Or.inr hgood

theorem solveFuel_inv (P : Step → Prop)
    (hP : ∀ ns : List Step, (∀ s ∈ ns, P s) → ∀ c ∈ operations ns, P c) :
    ∀ (f : ℕ) (t : ℤ) (ns res : List Step) (x : Step), (∀ s ∈ ns, P s) →
      x ∈ solveFuel f t ns res → x ∈ res ∨ (P x ∧ x.value = t) := by
  intro f
  induction f with
  | zero =>
    intro t ns res x _ hx
    exact Or.inl (by simpa [solveFuel] using hx)
  | succ f ih =>
    intro t ns res x hns hx
    rw [solveFuel_succ] at hx
    exact solveGo_inv P f ih t ns (operations ns) res x hns (hP ns hns) hx

/-- Everything the search records from a valid working list is valid and
has the target value. -/
theorem solveFuel_valid {f : ℕ} {t : ℤ} {ns : List Step} {x : Step}
    (hns : AllValid ns) (hx : x ∈ solveFuel f t ns []) : Valid x ∧ x.value = t := by
  rcases solveFuel_inv Valid (fun _ h => operations_valid h) f t ns [] x hns hx with h | h
  · exact absurd h (List.not_mem_nil x)
  · exact h

/-! ### Completeness facts used for the search-shape claims -/

/-- A matching candidate anywhere in the (all-internal) candidate list
is recorded: the loop does not stop at the first hit. -/
theorem solveGo_mem_match {f : ℕ} {t : ℤ} {ns : List Step} {c : Step}
    (hv : c.value = t) :
    ∀ cs res, (∀ c' ∈ cs, ∃ v l o r, c' = Step.node v l o r) → c ∈ cs →
      c ∈ solveGo f t ns cs res := by
  intro cs
  induction cs with
  | nil =>
    intro res _ hmem
    exact absurd hmem (List.not_mem_nil c)
  | cons c0 cs ih =>
    intro res hint hmem
    obtain ⟨v, l, o, r, rfl⟩ := hint c0 (by simp)
    have hint' : ∀ c' ∈ cs, ∃ v l o r, c' = Step.node v l o r :=
      fun c' hc' => hint c' (by simp [hc'])
    rcases List.mem_cons.mp hmem with rfl | hmem
    · rw [show solveGo f t ns (Step.node v l o r :: cs) res =
          solveGo f t ns cs (addResult res (.node v l o r)) by rw [solveGo_cons]; simp [hv]]
      exact (mem_solveGo_iff t ns cs _ _).mpr
        (Or.inl ((mem_addResult _ _ _).mpr (Or.inr rfl)))
    · by_cases hv0 : (Step.node v l o r).value = t
      · rw [show solveGo f t ns (Step.node v l o r :: cs) res =
            solveGo f t ns cs (addResult res (.node v l o r)) by rw [solveGo_cons]; simp [hv0]]
        exact ih _ hint' hmem
      · rw [show solveGo f t ns (Step.node v l o r :: cs) res =
            solveGo f t ns cs (solveFuel f t (reduce ns l r (.node v l o r)) res)
            by rw [solveGo_cons]; simp [hv0]]
        exact ih _ hint' hmem

/-- Everything found by the recursive call on a non-matching candidate's
reduced list ends up in the loop's output. -/
theorem solveGo_sub_incl {f : ℕ} {t : ℤ} {ns : List Step} {v : ℤ} {l r : Step} {o : Opr}
    (hv : (Step.node v l o r).value ≠ t) {x : Step}
    (hx : x ∈ solveFuel f t (reduce ns l r (.node v l o r)) []) :
    ∀ cs res, (∀ c' ∈ cs, ∃ v' l' o' r', c' = Step.node v' l' o' r') →
      Step.node v l o r ∈ cs → x ∈ solveGo f t ns cs res := by
  intro cs
  induction cs with
  | nil =>
    intro res _ hmem
    exact absurd hmem (List.not_mem_nil _)
  | cons c0 cs ih =>
    intro res hint hmem
    obtain ⟨v0, l0, o0, r0, rfl⟩ := hint c0 (by simp)
    have hint' : ∀ c' ∈ cs, ∃ v' l' o' r', c' = Step.node v' l' o' r' :=
      fun c' hc' => hint c' (by simp [hc'])
    by_cases he : Step.node v0 l0 o0 r0 = Step.node v l o r
    · rw [he]
      rw [show solveGo f t ns (Step.node v l o r :: cs) res =
          solveGo f t ns cs (solveFuel f t (reduce ns l r (.node v l o r)) res)
          by rw [solveGo_cons]; simp [hv]]
      refine (mem_solveGo_iff t ns cs _ _).mpr (Or.inl ?_)
      exact (mem_solveFuel_iff f t _ res x).mpr (Or.inr hx)
    · have hmem' : Step.node v l o r ∈ cs := by
        rcases List.mem_cons.mp hmem with h | h
        · exact absurd h.symm he
        · exact h
      by_cases hv0 : (Step.node v0 l0 o0 r0).value = t
      · rw [show solveGo f t ns (Step.node v0 l0 o0 r0 :: cs) res =
            solveGo f t ns cs (addResult res (.node v0 l0 o0 r0)) by rw [solveGo_cons]; simp [hv0]]
        exact ih _ hint' hmem'
      · rw [show solveGo f t ns (Step.node v0 l0 o0 r0 :: cs) res =
            solveGo f t ns cs (solveFuel f t (reduce ns l0 r0 (.node v0 l0 o0 r0)) res)
            by rw [solveGo_cons]; simp [hv0]]
        exact ih _ hint' hmem'

/-- Every internal node of `operations ns` exists as such. -/
theorem operations_internal {ns : List Step} :
    ∀ c' ∈ operations ns, ∃ v l o r, c' = Step.node v l o r := by
  intro c' hc'
  rcases operations_shape hc' with ⟨v, l, o, r, rfl, -⟩
  exact ⟨v, l, o, r, rfl⟩

/-! ### Fuel adequacy and the recursion-depth bound -/

theorem solveGo_adequate {f : ℕ} {t : ℤ} {ns : List Step}
    (ihF : ∀ (t : ℤ) (ns res : List Step), ns.length ≤ f + 1 →
      solveFuel f t ns res = solveFuel (f + 1) t ns res)
    (hlen : ns.length ≤ f + 2) :
    ∀ cs res, (∀ c' ∈ cs, c' ∈ operations ns) →
      solveGo f t ns cs res = solveGo (f + 1) t ns cs res := by
  intro cs
  induction cs with
  | nil =>
    intro res _
    simp [solveGo]
  | cons c0 cs ih =>
    intro res hmem
    have hc0 := hmem c0 (by simp)
    have hmem' : ∀ c' ∈ cs, c' ∈ operations ns := fun c' hc' => hmem c' (by simp [hc'])
    rcases operations_shape hc0 with ⟨v, l, o, r, rfl, rest, hdec⟩
    by_cases hv : (Step.node v l o r).value = t
    · rw [show solveGo f t ns (Step.node v l o r :: cs) res =
          solveGo f t ns cs (addResult res (.node v l o r)) by rw [solveGo_cons]; simp [hv]]
      rw [show solveGo (f + 1) t ns (Step.node v l o r :: cs) res =
          solveGo (f + 1) t ns cs (addResult res (.node v l o r)) by rw [solveGo_cons]; simp [hv]]
      exact ih _ hmem'
    · rw [show solveGo f t ns (Step.node v l o r :: cs) res =
          solveGo f t ns cs (solveFuel f t (reduce ns l r (.node v l o r)) res)
          by rw [solveGo_cons]; simp [hv]]
      rw [show solveGo (f + 1) t ns (Step.node v l o r :: cs) res =
          solveGo (f + 1) t ns cs (solveFuel (f + 1) t (reduce ns l r (.node v l o r)) res)
          by rw [solveGo_cons]; simp [hv]]
      have hrlen : (reduce ns l r (.node v l o r)).length = ns.length - 1 :=
        reduce_length rfl hdec
      have h2 := two_le_of_mem_operations hc0
      rw [ihF t (reduce ns l r (.node v l o r)) res (by omega)]
      exact ih _ hmem'

/-- One extra unit of fuel never changes the result once the fuel covers
the working-list length: the recursion bottoms out before the fuel. -/
theorem solveFuel_adequate :
    ∀ (f : ℕ) (t : ℤ) (ns res : List Step), ns.length ≤ f + 1 →
      solveFuel f t ns res = solveFuel (f + 1) t ns res := by
  intro f
  induction f with
  | zero =>
    intro t ns res hlen
    have h1 : solveFuel 1 t ns res = solveGo 0 t ns (operations ns) res :=
      solveFuel_succ 0 t ns res
    rw [show solveFuel 0 t ns res = res from rfl, h1, operations_short hlen, solveGo_nil]
  | succ f ih =>
    intro t ns res hlen
    rw [solveFuel_succ f, solveFuel_succ (f + 1)]
    exact solveGo_adequate ih hlen (operations ns) res (fun _ h => h)

/-- Arbitrary extra fuel never changes the result. -/
theorem solveFuel_stable (f g : ℕ) (t : ℤ) (ns res : List Step)
    (hlen : ns.length ≤ f + 1) (hfg : f ≤ g) :
    solveFuel f t ns res = solveFuel g t ns res := by
  induction g with
  | zero =>
    have : f = 0 := by omega
    subst this
    rfl
  | succ g ihg =>
    by_cases h : f = g + 1
    · subst h
      rfl
    · have hfg' : f ≤ g := by omega
      rw [ihg hfg']
      have : ns.length ≤ g + 1 := by omega
      exact solveFuel_adequate g t ns res this

theorem depthGo_nil (f : ℕ) (t : ℤ) (ns : List Step) (acc : ℕ) :
    depthGo f t ns [] acc = acc := rfl

theorem depthGo_cons (f : ℕ) (t : ℤ) (ns : List Step) (c : Step) (cs : List Step) (acc : ℕ) :
    depthGo f t ns (c :: cs) acc =
      depthGo f t ns cs
        (if c.value = t then acc
          else match c with
            | .num _ => acc
            | .node v l o r =>
              max acc (1 + depthFuel f t (reduce ns l r (.node v l o r)))) := by
  unfold depthGo
  rw [List.foldl_cons]

theorem depthFuel_succ (f : ℕ) (t : ℤ) (ns : List Step) :
    depthFuel (f + 1) t ns = depthGo f t ns (operations ns) 0 := rfl

theorem depthGo_le {f : ℕ} {t : ℤ} {ns : List Step}
    (ihF : ∀ (t : ℤ) (ns : List Step), depthFuel f t ns ≤ ns.length - 1) :
    ∀ cs acc, (∀ c' ∈ cs, c' ∈ operations ns) → acc ≤ ns.length - 1 →
      depthGo f t ns cs acc ≤ ns.length - 1 := by
  intro cs
  induction cs with
  | nil =>
    intro acc _ hacc
    rw [depthGo_nil]
    exact hacc
  | cons c0 cs ih =>
    intro acc hmem hacc
    have hc0 := hmem c0 (by simp)
    have hmem' : ∀ c' ∈ cs, c' ∈ operations ns := fun c' hc' => hmem c' (by simp [hc'])
    rcases operations_shape hc0 with ⟨v, l, o, r, rfl, rest, hdec⟩
    rw [depthGo_cons]
    by_cases hv : (Step.node v l o r).value = t
    · rw [if_pos hv]
      exact ih acc hmem' hacc
    · rw [if_neg hv]
      refine ih _ hmem' ?_
      have hrlen : (reduce ns l r (.node v l o r)).length = ns.length - 1 :=
        reduce_length rfl hdec
      have h2 := two_le_of_mem_operations hc0
      have hb := ihF t (reduce ns l r (.node v l o r))
      rw [hrlen] at hb
      simp only []
      omega

/-- The recursion depth is bounded by one less than the number count. -/
theorem depthFuel_le : ∀ (f : ℕ) (t : ℤ) (ns : List Step),
    depthFuel f t ns ≤ ns.length - 1 := by
  intro f
  induction f with
  | zero =>
    intro t ns
    simp [depthFuel]
  | succ f ih =>
    intro t ns
    rw [depthFuel_succ]
    exact depthGo_le ih (operations ns) 0 (fun _ h => h) (by omega)

/-! ### The order on steps -/

theorem Step.tupLt_iff (p q : ℕ × ℕ × ℕ × ℕ) :
    Step.tupLt p q = true ↔
      p.1 < q.1 ∨ (p.1 = q.1 ∧ (p.2.1 < q.2.1 ∨ (p.2.1 = q.2.1 ∧
        (p.2.2.1 < q.2.2.1 ∨ (p.2.2.1 = q.2.2.1 ∧ p.2.2.2 < q.2.2.2))))) := by
  obtain ⟨d1, m1, s1, a1⟩ := p
  obtain ⟨d2, m2, s2, a2⟩ := q
  simp [Step.tupLt]

/-- Mirror fact: `Step.__lt__` holds exactly on the three-level lexicographic
comparison: value, then length, then the operations 4-tuple. -/
theorem Step.lt_iff (a b : Step) :
    Step.lt a b = true ↔
      a.value < b.value ∨ (a.value = b.value ∧ (a.len < b.len ∨ (a.len = b.len ∧
        Step.tupLt a.operationsProfile b.operationsProfile = true))) := by
  unfold Step.lt
  rcases eq_or_ne a.value b.value with h1 | h1
  · rcases eq_or_ne a.len b.len with h2 | h2
    · simp [h1, h2]
    · simp [h1, h2]
  · simp [h1]

theorem Step.lt_irrefl (a : Step) : Step.lt a a = false := by
  rw [Bool.eq_false_iff]
  intro hcon
  rw [Step.lt_iff, Step.tupLt_iff] at hcon
  omega

theorem Step.lt_asymm {a b : Step} (h : Step.lt a b = true) : Step.lt b a = false := by
  rw [Step.lt_iff, Step.tupLt_iff] at h
  rw [Bool.eq_false_iff]
  intro hcon
  rw [Step.lt_iff, Step.tupLt_iff] at hcon
  omega

theorem stepLe_total (a b : Step) : (stepLe a b || stepLe b a) = true := by
  unfold stepLe
  rw [Bool.or_eq_true, Bool.not_eq_true', Bool.not_eq_true']
  by_cases h : Step.lt b a = true
  · exact Or.inr (Step.lt_asymm h)
  · exact Or.inl (Bool.eq_false_iff.mpr h)

theorem stepLe_trans {a b c : Step} (h1 : stepLe a b = true) (h2 : stepLe b c = true) :
    stepLe a c = true := by
  unfold stepLe at h1 h2 ⊢
  rw [Bool.not_eq_true'] at h1 h2 ⊢
  have h1' : ¬Step.lt b a = true := by simp [h1]
  have h2' : ¬Step.lt c b = true := by simp [h2]
  rw [Step.lt_iff, Step.tupLt_iff] at h1' h2'
  rw [Bool.eq_false_iff]
  intro hcon
  rw [Step.lt_iff, Step.tupLt_iff] at hcon
  omega

theorem Step.tupLt_iff' (d1 m1 s1 a1 d2 m2 s2 a2 : ℕ) :
    Step.tupLt (d1, m1, s1, a1) (d2, m2, s2, a2) = true ↔
      d1 < d2 ∨ (d1 = d2 ∧ (m1 < m2 ∨ (m1 = m2 ∧ (s1 < s2 ∨ (s1 = s2 ∧ a1 < a2))))) := by
  simp [Step.tupLt]

theorem Step.tup_asymm {p q : ℕ × ℕ × ℕ × ℕ} (h : Step.tupLt p q = true) :
    Step.tupLt q p = false := by
  obtain ⟨d1, m1, s1, a1⟩ := p
  obtain ⟨d2, m2, s2, a2⟩ := q
  rw [Step.tupLt_iff'] at h
  rw [Bool.eq_false_iff]
  intro hcon
  rw [Step.tupLt_iff'] at hcon
  omega

theorem Step.tup_connected {p q : ℕ × ℕ × ℕ × ℕ}
    (h1 : ¬Step.tupLt p q = true) (h2 : ¬Step.tupLt q p = true) : p = q := by
  obtain ⟨d1, m1, s1, a1⟩ := p
  obtain ⟨d2, m2, s2, a2⟩ := q
  rw [Step.tupLt_iff'] at h1 h2
  simp only [Prod.mk.injEq]
  omega

/-- Two steps neither of which is below the other agree on value, leaf
count, and operations profile: the order has no further tie-break. -/
theorem Step.lt_connected {a b : Step} (h1 : Step.lt a b = false) (h2 : Step.lt b a = false) :
    a.value = b.value ∧ a.len = b.len ∧ a.operationsProfile = b.operationsProfile := by
  have h1' : ¬Step.lt a b = true := by simp [h1]
  have h2' : ¬Step.lt b a = true := by simp [h2]
  rw [Step.lt_iff] at h1' h2'
  by_cases ht1 : Step.tupLt a.operationsProfile b.operationsProfile = true
  · have ht2 : ¬Step.tupLt b.operationsProfile a.operationsProfile = true := by
      simp [Step.tup_asymm ht1]
    simp only [ht1, ht2, and_true, and_false, or_false] at h1' h2'
    exfalso
    omega
  · by_cases ht2 : Step.tupLt b.operationsProfile a.operationsProfile = true
    · simp only [ht1, ht2, and_true, and_false, or_false] at h1' h2'
      exfalso
      omega
    · simp only [ht1, ht2, and_true, and_false, or_false] at h1' h2'
      exact ⟨by omega, by omega, Step.tup_connected ht1 ht2⟩

/-! ### The stable sort -/

theorem insertStep_perm (s : Step) (l : List Step) : List.Perm (insertStep s l) (s :: l) := by
  induction l with
  | nil => exact List.Perm.refl _
  | cons x xs ih =>
    unfold insertStep
    split
    · exact List.Perm.refl _
    · exact (List.Perm.cons x ih).trans (List.Perm.swap s x xs)

theorem sortResults_perm (l : List Step) : List.Perm (sortResults l) l := by
  induction l with
  | nil => exact List.Perm.refl _
  | cons x xs ih =>
    exact (insertStep_perm x (sortResults xs)).trans (List.Perm.cons x ih)

theorem insertStep_sorted (s : Step) (l : List Step)
    (hl : l.Pairwise (fun a b => stepLe a b = true)) :
    (insertStep s l).Pairwise (fun a b => stepLe a b = true) := by
  induction l with
  | nil => exact List.pairwise_singleton _ s
  | cons x xs ih =>
    rw [List.pairwise_cons] at hl
    obtain ⟨hx, hxs⟩ := hl
    unfold insertStep
    split <;> rename_i hle
    · refine List.pairwise_cons.mpr ⟨?_, List.pairwise_cons.mpr ⟨hx, hxs⟩⟩
      intro y hy
      rcases List.mem_cons.mp hy with rfl | hy
      · exact hle
      · exact stepLe_trans hle (hx y hy)
    · have hxle : stepLe x s = true := by
        have htot := stepLe_total s x
        rw [Bool.or_eq_true] at htot
        rcases htot with h | h
        · exact absurd h hle
        · exact h
      refine List.pairwise_cons.mpr ⟨?_, ih hxs⟩
      intro y hy
      have : y ∈ s :: xs := (insertStep_perm s xs).mem_iff.mp hy
      rcases List.mem_cons.mp this with rfl | hy2
      · exact hxle
      · exact hx y hy2

theorem sortResults_sorted (l : List Step) :
    (sortResults l).Pairwise (fun a b => stepLe a b = true) := by
  induction l with
  | nil => exact List.Pairwise.nil
  | cons x xs ih => exact insertStep_sorted x (sortResults xs) ih

/-- The first entry of the sorted result list is minimal: no recorded
solution is strictly below it under `Step.__lt__`. -/
theorem sortResults_head_min {res : List Step} {s : Step} {rest : List Step}
    (h : sortResults res = s :: rest) :
    ∀ x ∈ res, Step.lt x s = false := by
  intro x hx
  have hmem : x ∈ s :: rest := by
    rw [← h]
    exact (sortResults_perm res).symm.mem_iff.mp hx
  rcases List.mem_cons.mp hmem with rfl | hmem2
  · exact Step.lt_irrefl x
  · have hs := sortResults_sorted res
    rw [h, List.pairwise_cons] at hs
    have hle := hs.1 x hmem2
    unfold stepLe at hle
    rw [Bool.not_eq_true'] at hle
    exact hle

/-! ### Evaluator support lemmas -/

theorem consume_append (ts1 ts2 : List Tok) (st : EvalSt) :
    consume (ts1 ++ ts2) st = (consume ts1 st).bind (consume ts2) := by
  induction ts1 generalizing st with
  | nil => rfl
  | cons t ts ih =>
    show (evalStep st t).bind (consume (ts ++ ts2)) =
      ((evalStep st t).bind (consume ts)).bind (consume ts2)
    cases evalStep st t with
    | none => rfl
    | some st1 => exact ih st1

/-- An internal step whose operator is additive. -/
def AddNode (s : Step) : Prop := s.opOf = some .add ∨ s.opOf = some .sub

instance : DecidablePred AddNode := fun s => by unfold AddNode; infer_instance

/-- The operator stack's top allows a multiplicative flush to stop:
empty, an open parenthesis, or a pending additive operator. -/
def lowTop : List StkOp → Prop
  | [] => True
  | .mark :: _ => True
  | .op o :: _ => o = .add ∨ o = .sub

/-- The operator stack's top allows any flush to stop: empty or an open
parenthesis. -/
def markTop : List StkOp → Prop
  | [] => True
  | .mark :: _ => True
  | .op _ :: _ => False

theorem markTop_lowTop : ∀ {ops : List StkOp}, markTop ops → lowTop ops
  | [], _ => trivial
  | .mark :: _, _ => trivial
  | .op _ :: _, h => absurd h (by simp [markTop])

theorem flushGe_stop_mark (k : ℕ) (ns : List ℤ) :
    ∀ {ops : List StkOp}, markTop ops → flushGe k ns ops = some (ns, ops)
  | [], _ => rfl
  | .mark :: _, _ => rfl
  | .op _ :: _, h => absurd h (by simp [markTop])

theorem flushGe_stop_low (ns : List ℤ) :
    ∀ {ops : List StkOp}, lowTop ops → flushGe 2 ns ops = some (ns, ops)
  | [], _ => rfl
  | .mark :: _, _ => rfl
  | .op o :: t, h => by
    show flushGe 2 ns (.op o :: t) = _
    unfold flushGe
    rw [if_neg]
    rcases h with rfl | rfl <;> simp [prec]

theorem flushGe_pop {k : ℕ} {o : Opr} (h : prec o ≥ k) (b a : ℤ) (rest : List ℤ)
    (ops : List StkOp) :
    flushGe k (b :: a :: rest) (.op o :: ops) =
      (applyO o a b).bind (fun v => flushGe k (v :: rest) ops) := by
  rw [show flushGe k (b :: a :: rest) (.op o :: ops) =
      if prec o ≥ k then (applyO o a b).bind (fun v => flushGe k (v :: rest) ops)
      else some (b :: a :: rest, .op o :: ops) from rfl, if_pos h]

/-- A full flush factors through the multiplicative flush. -/
theorem flushGe_one_two (ns : List ℤ) (ops : List StkOp) :
    flushGe 1 ns ops = (flushGe 2 ns ops).bind (fun st => flushGe 1 st.1 st.2) := by
  induction ops generalizing ns with
  | nil => rfl
  | cons p ops ih =>
    cases p with
    | mark => rfl
    | op o =>
      cases o with
      | add => rw [flushGe_stop_low ns (by simp [lowTop])]; rfl
      | sub => rw [flushGe_stop_low ns (by simp [lowTop])]; rfl
      | mul =>
        match ns with
        | [] =>
          show none = Option.bind none _
          rfl
        | [b] =>
          show none = Option.bind none _
          rfl
        | b :: a :: rest =>
          rw [flushGe_pop (by simp [prec]) b a rest ops,
            flushGe_pop (by simp [prec]) b a rest ops]
          show flushGe 1 ((a * b) :: rest) ops = _
          rw [ih]
          rfl
      | div =>
        match ns with
        | [] =>
          show none = Option.bind none _
          rfl
        | [b] =>
          show none = Option.bind none _
          rfl
        | b :: a :: rest =>
          rw [flushGe_pop (by simp [prec]) b a rest ops,
            flushGe_pop (by simp [prec]) b a rest ops]
          show Option.bind (applyO .div a b) _ = Option.bind (Option.bind (applyO .div a b) _) _
          cases applyO .div a b with
          | none => rfl
          | some v =>
            show flushGe 1 (v :: rest) ops = _
            rw [ih]
            rfl

/-! ### The four consumption contexts of a rendered subexpression

A rendered subtoken string is consumed by the evaluator from one of four
stack shapes: at expression level over a paren-or-empty stack (`P2a`),
at expression level with one pending `+` (`P2b`), at term level over a
low stack (`P1`), and at term level with a pending `×` (`P3`). -/

def P2a (s : Step) : Prop :=
  ∀ ns ops, markTop ops → ∃ st : EvalSt, consume s.tokens (ns, ops) = some st ∧
    flushGe 1 st.1 st.2 = some (s.value :: ns, ops)

def P2b (s : Step) : Prop :=
  ∀ acc ns ops, markTop ops → ∃ st : EvalSt,
    consume s.tokens (acc :: ns, .op .add :: ops) = some st ∧
    flushGe 1 st.1 st.2 = some ((acc + s.value) :: ns, ops)

def P1 (s : Step) : Prop :=
  ∀ ns ops, lowTop ops → ∃ st : EvalSt, consume s.tokens (ns, ops) = some st ∧
    flushGe 2 st.1 st.2 = some (s.value :: ns, ops)

def P3 (s : Step) : Prop :=
  ∀ acc ns ops, lowTop ops → ∃ st : EvalSt,
    consume s.tokens (acc :: ns, .op .mul :: ops) = some st ∧
    flushGe 2 st.1 st.2 = some ((acc * s.value) :: ns, ops)

theorem P2a_of_P1 {s : Step} (h1 : P1 s) : P2a s := by
  intro ns ops hm
  rcases h1 ns ops (markTop_lowTop hm) with ⟨st, hc, hf⟩
  refine ⟨st, hc, ?_⟩
  rw [flushGe_one_two, hf]
  show flushGe 1 (s.value :: ns) ops = _
  exact flushGe_stop_mark 1 _ hm

theorem P2b_of_P1 {s : Step} (h1 : P1 s) : P2b s := by
  intro acc ns ops hm
  rcases h1 (acc :: ns) (.op .add :: ops) (by simp [lowTop]) with ⟨st, hc, hf⟩
  refine ⟨st, hc, ?_⟩
  rw [flushGe_one_two, hf]
  show flushGe 1 (s.value :: acc :: ns) (.op .add :: ops) = _
  rw [flushGe_pop (by simp [prec]) s.value acc ns ops]
  show flushGe 1 ((acc + s.value) :: ns) ops = _
  exact flushGe_stop_mark 1 _ hm

/-- Consuming a parenthesized subexpression from any state pushes its
value like a literal. -/
theorem consume_paren {r : Step} (hP : P2a r) (ns : List ℤ) (ops : List StkOp) :
    consume (Tok.lparen :: (r.tokens ++ [Tok.rparen])) (ns, ops) =
      some (r.value :: ns, ops) := by
  show (evalStep (ns, ops) .lparen).bind (consume (r.tokens ++ [Tok.rparen])) = _
  show consume (r.tokens ++ [Tok.rparen]) (ns, .mark :: ops) = _
  rcases hP ns (.mark :: ops) trivial with ⟨st, hc, hf⟩
  rw [consume_append, hc]
  show consume [Tok.rparen] st = _
  show (evalStep st .rparen).bind (consume []) = _
  show ((flushGe 1 st.1 st.2).bind fun st' =>
    match st' with
    | (ns', .mark :: ops') => some (ns', ops')
    | _ => none).bind (consume []) = _
  rw [hf]
  rfl

/-! ### Parenthesization-condition facts -/

theorem parenLeft_true {l : Step} {o : Opr} (hA : AddNode l) (ho : o = .mul ∨ o = .div) :
    Step.parenLeft l o = true := by
  rcases hA with h | h <;> rcases ho with rfl | rfl <;> simp [Step.parenLeft, h]

theorem parenLeft_false {l : Step} (o : Opr) (hA : ¬AddNode l) :
    Step.parenLeft l o = false := by
  have h1 : ¬l.opOf = some .add := fun h => hA (Or.inl h)
  have h2 : ¬l.opOf = some .sub := fun h => hA (Or.inr h)
  simp [Step.parenLeft, h1, h2]

theorem parenLeft_addsub {l : Step} {o : Opr} (ho : o = .add ∨ o = .sub) :
    Step.parenLeft l o = false := by
  rcases ho with rfl | rfl <;> simp [Step.parenLeft]

theorem parenRight_add (r : Step) : Step.parenRight .add r = false := by
  simp [Step.parenRight]

theorem parenRight_subMul_true {r : Step} {o : Opr} (ho : o = .sub ∨ o = .mul)
    (hA : AddNode r) : Step.parenRight o r = true := by
  rcases ho with rfl | rfl <;> rcases hA with h | h <;> simp [Step.parenRight, h]

theorem parenRight_subMul_false {r : Step} {o : Opr} (ho : o = .sub ∨ o = .mul)
    (hA : ¬AddNode r) : Step.parenRight o r = false := by
  have h1 : ¬r.opOf = some .add := fun h => hA (Or.inl h)
  have h2 : ¬r.opOf = some .sub := fun h => hA (Or.inr h)
  rcases ho with rfl | rfl <;> simp [Step.parenRight, h1, h2]

theorem parenRight_div_num (rv : ℤ) : Step.parenRight .div (.num rv) = false := by
  simp [Step.parenRight, Step.opOf]

theorem parenRight_div_node (v : ℤ) (l : Step) (o : Opr) (r : Step) :
    Step.parenRight .div (.node v l o r) = true := by
  simp [Step.parenRight, Step.opOf]

theorem wrapped_shape (ts : List Tok) :
    [Tok.lparen] ++ ts ++ [Tok.rparen] = Tok.lparen :: (ts ++ [Tok.rparen]) := by
  simp

/-! ### Stage lemmas: consuming one side of a rendered internal node -/

/-- Consuming the (possibly parenthesized) left part of a `×`/`÷` node
followed by its operator token, from a low stack. -/
theorem left_then_op {l : Step} {o : Opr} (ho : o = .mul ∨ o = .div)
    (hL2a : P2a l) (hL1 : ¬AddNode l → P1 l) (ns : List ℤ) (ops : List StkOp)
    (hlow : lowTop ops) :
    consume ((if Step.parenLeft l o then [Tok.lparen] ++ l.tokens ++ [Tok.rparen]
      else l.tokens) ++ [o.tok]) (ns, ops) = some (l.value :: ns, .op o :: ops) := by
  by_cases hAl : AddNode l
  · rw [if_pos (parenLeft_true hAl ho), wrapped_shape, consume_append,
      consume_paren hL2a]
    show consume [o.tok] (l.value :: ns, ops) = _
    rcases ho with rfl | rfl
    · show ((flushGe 2 (l.value :: ns) ops).map fun st' =>
        (st'.1, .op .mul :: st'.2)).bind (consume []) = _
      rw [flushGe_stop_low _ hlow]
      rfl
    · show ((flushGe 2 (l.value :: ns) ops).map fun st' =>
        (st'.1, .op .div :: st'.2)).bind (consume []) = _
      rw [flushGe_stop_low _ hlow]
      rfl
  · rw [if_neg (by simp [parenLeft_false o hAl])]
    rcases hL1 hAl ns ops hlow with ⟨st, hc, hf⟩
    rw [consume_append, hc]
    show consume [o.tok] st = _
    rcases ho with rfl | rfl
    · show ((flushGe 2 st.1 st.2).map fun st' => (st'.1, .op .mul :: st'.2)).bind (consume [])
        = _
      rw [hf]
      rfl
    · show ((flushGe 2 st.1 st.2).map fun st' => (st'.1, .op .div :: st'.2)).bind (consume [])
        = _
      rw [hf]
      rfl

/-- As `left_then_op`, but with one pending `×` below: the pending
multiplication is applied while the left part is consumed. -/
theorem left_then_op_pending {l : Step} {o : Opr} (ho : o = .mul ∨ o = .div)
    (hL2a : P2a l) (hL3 : ¬AddNode l → P3 l) (acc : ℤ) (ns : List ℤ) (ops : List StkOp)
    (hlow : lowTop ops) :
    consume ((if Step.parenLeft l o then [Tok.lparen] ++ l.tokens ++ [Tok.rparen]
      else l.tokens) ++ [o.tok]) (acc :: ns, .op .mul :: ops) =
      some ((acc * l.value) :: ns, .op o :: ops) := by
  by_cases hAl : AddNode l
  · rw [if_pos (parenLeft_true hAl ho), wrapped_shape, consume_append,
      consume_paren hL2a]
    show consume [o.tok] (l.value :: acc :: ns, .op .mul :: ops) = _
    have hflush : flushGe 2 (l.value :: acc :: ns) (.op .mul :: ops) =
        some ((acc * l.value) :: ns, ops) := by
      rw [flushGe_pop (by simp [prec]) l.value acc ns ops]
      show flushGe 2 ((acc * l.value) :: ns) ops = _
      exact flushGe_stop_low _ hlow
    rcases ho with rfl | rfl
    · show ((flushGe 2 (l.value :: acc :: ns) (.op .mul :: ops)).map fun st' =>
        (st'.1, .op .mul :: st'.2)).bind (consume []) = _
      rw [hflush]
      rfl
    · show ((flushGe 2 (l.value :: acc :: ns) (.op .mul :: ops)).map fun st' =>
        (st'.1, .op .div :: st'.2)).bind (consume []) = _
      rw [hflush]
      rfl
  · rw [if_neg (by simp [parenLeft_false o hAl])]
    rcases hL3 hAl acc ns ops hlow with ⟨st, hc, hf⟩
    rw [consume_append, hc]
    show consume [o.tok] st = _
    rcases ho with rfl | rfl
    · show ((flushGe 2 st.1 st.2).map fun st' => (st'.1, .op .mul :: st'.2)).bind (consume [])
        = _
      rw [hf]
      rfl
    · show ((flushGe 2 st.1 st.2).map fun st' => (st'.1, .op .div :: st'.2)).bind (consume [])
        = _
      rw [hf]
      rfl

/-- Consuming the (possibly parenthesized) right part of a `×` node with
the `×` pending: the accumulated left value is multiplied in. -/
theorem right_mul {r : Step} (hR2a : P2a r) (hR3 : ¬AddNode r → P3 r)
    (X : ℤ) (ns : List ℤ) (ops : List StkOp) (hlow : lowTop ops) :
    ∃ st : EvalSt,
      consume (if Step.parenRight .mul r then [Tok.lparen] ++ r.tokens ++ [Tok.rparen]
        else r.tokens) (X :: ns, .op .mul :: ops) = some st ∧
      flushGe 2 st.1 st.2 = some ((X * r.value) :: ns, ops) := by
  by_cases hAr : AddNode r
  · rw [if_pos (parenRight_subMul_true (Or.inr rfl) hAr), wrapped_shape,
      consume_paren hR2a]
    refine ⟨(r.value :: X :: ns, .op .mul :: ops), rfl, ?_⟩
    show flushGe 2 (r.value :: X :: ns) (.op .mul :: ops) = _
    rw [flushGe_pop (by simp [prec]) r.value X ns ops]
    show flushGe 2 ((X * r.value) :: ns) ops = _
    exact flushGe_stop_low _ hlow
  · rw [if_neg (by simp [parenRight_subMul_false (Or.inr rfl) hAr])]
    exact hR3 hAr X ns ops hlow

/-- Consuming the right part of a `÷` node with the `÷` pending: the
right part is a literal or parenthesized, and the exact division is
applied. -/
theorem right_div {r : Step} (hR2a : P2a r) (hpos : 0 < r.value)
    (X : ℤ) (ns : List ℤ) (ops : List StkOp) (hlow : lowTop ops) (hdvd : r.value ∣ X) :
    ∃ st : EvalSt,
      consume (if Step.parenRight .div r then [Tok.lparen] ++ r.tokens ++ [Tok.rparen]
        else r.tokens) (X :: ns, .op .div :: ops) = some st ∧
      flushGe 2 st.1 st.2 = some ((X / r.value) :: ns, ops) := by
  have hflush : flushGe 2 (r.value :: X :: ns) (.op .div :: ops) =
      some ((X / r.value) :: ns, ops) := by
    rw [flushGe_pop (by simp [prec]) r.value X ns ops]
    have happ : applyO .div X r.value = some (X / r.value) := by
      simp [applyO, ne_of_gt hpos, hdvd]
    rw [happ]
    show flushGe 2 ((X / r.value) :: ns) ops = _
    exact flushGe_stop_low _ hlow
  cases r with
  | num rv =>
    rw [if_neg (by simp [parenRight_div_num])]
    exact ⟨(rv :: X :: ns, .op .div :: ops), rfl, hflush⟩
  | node v l o r =>
    rw [if_pos (parenRight_div_node v l o r), wrapped_shape, consume_paren hR2a]
    exact ⟨((Step.node v l o r).value :: X :: ns, .op .div :: ops), rfl, hflush⟩

/-- Consuming the right part of a `+`/`-` node with the operator
pending, at expression level. -/
theorem right_addsub {r : Step} {o : Opr} (ho : o = .add ∨ o = .sub)
    (hR2b : P2b r) (hR2a : P2a r) (hR1 : ¬AddNode r → P1 r)
    (X : ℤ) (ns : List ℤ) (ops : List StkOp) (hm : markTop ops) :
    ∃ st : EvalSt,
      consume (if Step.parenRight o r then [Tok.lparen] ++ r.tokens ++ [Tok.rparen]
        else r.tokens) (X :: ns, .op o :: ops) = some st ∧
      flushGe 1 st.1 st.2 = some (applyCode o X r.value :: ns, ops) := by
  rcases ho with rfl | rfl
  · rw [if_neg (by simp [parenRight_add])]
    exact hR2b X ns ops hm
  · have hflush : flushGe 1 (r.value :: X :: ns) (.op .sub :: ops) =
        some ((X - r.value) :: ns, ops) := by
      rw [flushGe_pop (by simp [prec]) r.value X ns ops]
      show flushGe 1 ((X - r.value) :: ns) ops = _
      exact flushGe_stop_mark 1 _ hm
    by_cases hAr : AddNode r
    · rw [if_pos (parenRight_subMul_true (Or.inl rfl) hAr), wrapped_shape,
        consume_paren hR2a]
      exact ⟨(r.value :: X :: ns, .op .sub :: ops), rfl, hflush⟩
    · rw [if_neg (by simp [parenRight_subMul_false (Or.inl rfl) hAr])]
      rcases hR1 hAr (X :: ns) (.op .sub :: ops) (by simp [lowTop]) with ⟨st, hc, hf⟩
      refine ⟨st, hc, ?_⟩
      rw [flushGe_one_two, hf]
      show flushGe 1 (r.value :: X :: ns) (.op .sub :: ops) = _
      exact hflush

/-- Master round-trip theorem: the token string of a valid step, fed to
the standard-precedence evaluator in any of its four rendering contexts,
produces exactly the step's value. -/
theorem tokens_spec : ∀ s : Step, Valid s →
    P2a s ∧ P2b s ∧ (¬AddNode s → P1 s) ∧ (¬AddNode s → P3 s) := by
  intro s
  induction s with
  | num v =>
    intro _
    have h1 : P1 (.num v) := by
      intro ns ops hlow
      exact ⟨(v :: ns, ops), rfl, flushGe_stop_low _ hlow⟩
    have h3 : P3 (.num v) := by
      intro acc ns ops hlow
      refine ⟨(v :: acc :: ns, .op .mul :: ops), rfl, ?_⟩
      show flushGe 2 (v :: acc :: ns) (.op .mul :: ops) = _
      rw [flushGe_pop (by simp [prec]) v acc ns ops]
      show flushGe 2 ((acc * v) :: ns) ops = _
      exact flushGe_stop_low _ hlow
    exact ⟨P2a_of_P1 h1, P2b_of_P1 h1, fun _ => h1, fun _ => h3⟩
  | node v l o r ihl ihr =>
    intro hval
    obtain ⟨hvl, hvr, hveq, hg⟩ := hval
    obtain ⟨L2a, L2b, L1, L3⟩ := ihl hvl
    obtain ⟨R2a, R2b, R1, R3⟩ := ihr hvr
    have htoks : (Step.node v l o r).tokens =
        ((if Step.parenLeft l o then [Tok.lparen] ++ l.tokens ++ [Tok.rparen]
          else l.tokens) ++ [o.tok]) ++
        (if Step.parenRight o r then [Tok.lparen] ++ r.tokens ++ [Tok.rparen]
          else r.tokens) := by
      show (if Step.parenLeft l o then [Tok.lparen] ++ l.tokens ++ [Tok.rparen]
          else l.tokens) ++ [o.tok] ++
        (if Step.parenRight o r then [Tok.lparen] ++ r.tokens ++ [Tok.rparen]
          else r.tokens) = _
      rfl
    cases o with
    | add =>
      have h2a : P2a (.node v l .add r) := by
        intro ns ops hm
        rcases L2a ns ops hm with ⟨st1, hc1, hf1⟩
        have hplus : consume [Tok.plus] st1 = some (l.value :: ns, .op .add :: ops) := by
          show ((flushGe 1 st1.1 st1.2).map fun st' =>
            (st'.1, .op .add :: st'.2)).bind (consume []) = _
          rw [hf1]
          rfl
        rcases right_addsub (Or.inl rfl) R2b R2a R1 l.value ns ops hm with ⟨st2, hc2, hf2⟩
        refine ⟨st2, ?_, ?_⟩
        · rw [htoks, if_neg (by simp [parenLeft_addsub (Or.inl rfl)]), consume_append,
            consume_append, hc1]
          show (consume [Tok.plus] st1).bind
            (consume (if Step.parenRight .add r
              then [Tok.lparen] ++ r.tokens ++ [Tok.rparen] else r.tokens)) = some st2
          rw [hplus]
          exact hc2
        · rw [hf2]
          show some ((l.value + r.value) :: ns, ops) = some (v :: ns, ops)
          rw [hveq]
          rfl
      have h2b : P2b (.node v l .add r) := by
        intro acc ns ops hm
        rcases L2b acc ns ops hm with ⟨st1, hc1, hf1⟩
        have hplus : consume [Tok.plus] st1 =
            some ((acc + l.value) :: ns, .op .add :: ops) := by
          show ((flushGe 1 st1.1 st1.2).map fun st' =>
            (st'.1, .op .add :: st'.2)).bind (consume []) = _
          rw [hf1]
          rfl
        rcases right_addsub (Or.inl rfl) R2b R2a R1 (acc + l.value) ns ops hm with
          ⟨st2, hc2, hf2⟩
        refine ⟨st2, ?_, ?_⟩
        · rw [htoks, if_neg (by simp [parenLeft_addsub (Or.inl rfl)]), consume_append,
            consume_append, hc1]
          show (consume [Tok.plus] st1).bind
            (consume (if Step.parenRight .add r
              then [Tok.lparen] ++ r.tokens ++ [Tok.rparen] else r.tokens)) = some st2
          rw [hplus]
          exact hc2
        · rw [hf2]
          show some (((acc + l.value) + r.value) :: ns, ops) = some ((acc + v) :: ns, ops)
          rw [hveq]
          show some (((acc + l.value) + r.value) :: ns, ops) =
            some ((acc + (l.value + r.value)) :: ns, ops)
          rw [add_assoc]
      exact ⟨h2a, h2b, fun h => absurd (Or.inl rfl) h, fun h => absurd (Or.inl rfl) h⟩
    | sub =>
      have h2a : P2a (.node v l .sub r) := by
        intro ns ops hm
        rcases L2a ns ops hm with ⟨st1, hc1, hf1⟩
        have hminus : consume [Tok.minus] st1 = some (l.value :: ns, .op .sub :: ops) := by
          show ((flushGe 1 st1.1 st1.2).map fun st' =>
            (st'.1, .op .sub :: st'.2)).bind (consume []) = _
          rw [hf1]
          rfl
        rcases right_addsub (Or.inr rfl) R2b R2a R1 l.value ns ops hm with ⟨st2, hc2, hf2⟩
        refine ⟨st2, ?_, ?_⟩
        · rw [htoks, if_neg (by simp [parenLeft_addsub (Or.inr rfl)]), consume_append,
            consume_append, hc1]
          show (consume [Tok.minus] st1).bind
            (consume (if Step.parenRight .sub r
              then [Tok.lparen] ++ r.tokens ++ [Tok.rparen] else r.tokens)) = some st2
          rw [hminus]
          exact hc2
        · rw [hf2]
          show some ((l.value - r.value) :: ns, ops) = some (v :: ns, ops)
          rw [hveq]
          rfl
      have h2b : P2b (.node v l .sub r) := by
        intro acc ns ops hm
        rcases L2b acc ns ops hm with ⟨st1, hc1, hf1⟩
        have hminus : consume [Tok.minus] st1 =
            some ((acc + l.value) :: ns, .op .sub :: ops) := by
          show ((flushGe 1 st1.1 st1.2).map fun st' =>
            (st'.1, .op .sub :: st'.2)).bind (consume []) = _
          rw [hf1]
          rfl
        rcases right_addsub (Or.inr rfl) R2b R2a R1 (acc + l.value) ns ops hm with
          ⟨st2, hc2, hf2⟩
        refine ⟨st2, ?_, ?_⟩
        · rw [htoks, if_neg (by simp [parenLeft_addsub (Or.inr rfl)]), consume_append,
            consume_append, hc1]
          show (consume [Tok.minus] st1).bind
            (consume (if Step.parenRight .sub r
              then [Tok.lparen] ++ r.tokens ++ [Tok.rparen] else r.tokens)) = some st2
          rw [hminus]
          exact hc2
        · rw [hf2]
          show some (((acc + l.value) - r.value) :: ns, ops) = some ((acc + v) :: ns, ops)
          rw [hveq]
          show some (((acc + l.value) - r.value) :: ns, ops) =
            some ((acc + (l.value - r.value)) :: ns, ops)
          rw [add_sub_assoc]
      exact ⟨h2a, h2b, fun h => absurd (Or.inr rfl) h, fun h => absurd (Or.inr rfl) h⟩
    | mul =>
      have h1 : P1 (.node v l .mul r) := by
        intro ns ops hlow
        have hleft := left_then_op (Or.inl rfl) L2a L1 ns ops hlow
        rcases right_mul R2a R3 l.value ns ops hlow with ⟨st2, hc2, hf2⟩
        refine ⟨st2, ?_, ?_⟩
        · rw [htoks, consume_append, hleft]
          exact hc2
        · rw [hf2]
          show some ((l.value * r.value) :: ns, ops) = some (v :: ns, ops)
          rw [hveq]
          rfl
      have h3 : P3 (.node v l .mul r) := by
        intro acc ns ops hlow
        have hleft := left_then_op_pending (Or.inl rfl) L2a L3 acc ns ops hlow
        rcases right_mul R2a R3 (acc * l.value) ns ops hlow with ⟨st2, hc2, hf2⟩
        refine ⟨st2, ?_, ?_⟩
        · rw [htoks, consume_append, hleft]
          exact hc2
        · rw [hf2]
          show some (((acc * l.value) * r.value) :: ns, ops) = some ((acc * v) :: ns, ops)
          rw [hveq]
          show some (((acc * l.value) * r.value) :: ns, ops) =
            some ((acc * (l.value * r.value)) :: ns, ops)
          rw [mul_assoc]
      exact ⟨P2a_of_P1 h1, P2b_of_P1 h1, fun _ => h1, fun _ => h3⟩
    | div =>
      obtain ⟨hne1, hdvd⟩ := hg
      have hpos : 0 < r.value := hvr.pos
      have hvdiv : v = l.value / r.value := by
        rw [hveq]
        exact Int.fdiv_eq_ediv _ (le_of_lt hpos)
      have h1 : P1 (.node v l .div r) := by
        intro ns ops hlow
        have hleft := left_then_op (Or.inr rfl) L2a L1 ns ops hlow
        rcases right_div R2a hpos l.value ns ops hlow hdvd with ⟨st2, hc2, hf2⟩
        refine ⟨st2, ?_, ?_⟩
        · rw [htoks, consume_append, hleft]
          exact hc2
        · rw [hf2]
          show some ((l.value / r.value) :: ns, ops) = some (v :: ns, ops)
          rw [hvdiv]
      have h3 : P3 (.node v l .div r) := by
        intro acc ns ops hlow
        have hleft := left_then_op_pending (Or.inr rfl) L2a L3 acc ns ops hlow
        rcases right_div R2a hpos (acc * l.value) ns ops hlow (hdvd.mul_left acc) with
          ⟨st2, hc2, hf2⟩
        refine ⟨st2, ?_, ?_⟩
        · rw [htoks, consume_append, hleft]
          exact hc2
        · rw [hf2]
          show some (((acc * l.value) / r.value) :: ns, ops) = some ((acc * v) :: ns, ops)
          rw [hvdiv, Int.mul_ediv_assoc acc hdvd]
      exact ⟨P2a_of_P1 h1, P2b_of_P1 h1, fun _ => h1, fun _ => h3⟩

/-- Evaluating the token string of a valid step under standard operator
precedence yields exactly the step's value. -/
theorem evalToks_tokens {s : Step} (hval : Valid s) :
    evalToks s.tokens = some s.value := by
  rcases (tokens_spec s hval).1 [] [] trivial with ⟨st, hc, hf⟩
  unfold evalToks
  rw [hc]
  show (flushGe 1 st.1 st.2).bind _ = _
  rw [hf]
  rfl

/-! ### The rendered string is the printed token string

`Step.__str__` and the token string agree: printing the token list —
token texts joined by single spaces, except that no space follows an
open or precedes a close parenthesis — reproduces the rendered string
character for character.  This ties the token-level evaluation claims
to the actual rendered output. -/

/-- The characters of one token's text. -/
def tokChars : Tok → List Char
  | .num v => (toString v).data
  | .plus => ['+']
  | .minus => ['-']
  | .times => ['×']
  | .divide => ['÷']
  | .lparen => ['(']
  | .rparen => [')']

/-- Print a token string: single spaces between tokens, none after an
open parenthesis or before a close parenthesis. -/
def joinTokens : List Tok → List Char
  | [] => []
  | [t] => tokChars t
  | t1 :: t2 :: ts =>
    tokChars t1 ++ (if t1 = Tok.lparen ∨ t2 = Tok.rparen then [] else [' ']) ++
      joinTokens (t2 :: ts)

theorem joinTokens_append : ∀ (xs ys : List Tok), xs ≠ [] → ys ≠ [] →
    joinTokens (xs ++ ys) = joinTokens xs ++
      (if xs.getLast? = some Tok.lparen ∨ ys.head? = some Tok.rparen then [] else [' ']) ++
      joinTokens ys := by
  intro xs
  induction xs with
  | nil =>
    intro ys h
    exact absurd rfl h
  | cons x xs ih =>
    intro ys hx hy
    cases xs with
    | nil =>
      cases ys with
      | nil => exact absurd rfl hy
      | cons y ys' =>
        show tokChars x ++ (if x = Tok.lparen ∨ y = Tok.rparen then [] else [' ']) ++
          joinTokens (y :: ys') = _
        have hiff : (([x] : List Tok).getLast? = some Tok.lparen ∨
            (y :: ys').head? = some Tok.rparen) ↔ (x = Tok.lparen ∨ y = Tok.rparen) := by
          simp
        by_cases hc : x = Tok.lparen ∨ y = Tok.rparen
        · rw [if_pos hc, if_pos (hiff.mpr hc)]
          rfl
        · rw [if_neg hc, if_neg (fun h => hc (hiff.mp h))]
          rfl
    | cons x2 xs'' =>
      show tokChars x ++ (if x = Tok.lparen ∨ x2 = Tok.rparen then [] else [' ']) ++
        joinTokens ((x2 :: xs'') ++ ys) = _
      rw [ih ys (by simp) hy]
      show _ = tokChars x ++ (if x = Tok.lparen ∨ x2 = Tok.rparen then [] else [' ']) ++
        joinTokens (x2 :: xs'') ++
        (if (x :: x2 :: xs'').getLast? = some Tok.lparen ∨ ys.head? = some Tok.rparen
          then [] else [' ']) ++ joinTokens ys
      rw [List.getLast?_cons_cons]
      simp [List.append_assoc]

theorem joinTokens_wrapped (X : List Tok) (hne : X ≠ []) :
    joinTokens ([Tok.lparen] ++ X ++ [Tok.rparen]) =
      '(' :: (joinTokens X ++ [')']) := by
  rw [show ([Tok.lparen] ++ X ++ [Tok.rparen] : List Tok) =
    [Tok.lparen] ++ (X ++ [Tok.rparen]) by simp]
  rw [joinTokens_append [Tok.lparen] (X ++ [Tok.rparen]) (by simp) (by simp)]
  rw [joinTokens_append X [Tok.rparen] hne (by simp)]
  rw [if_pos (Or.inl (by simp)), if_pos (Or.inr (by simp))]
  simp [joinTokens, tokChars]

theorem getLast_snoc (xs : List Tok) (t : Tok) : (xs ++ [t]).getLast? = some t := by
  rw [List.getLast?_append]
  simp [Option.or]

theorem opr_tok_ne_lparen (o : Opr) : o.tok ≠ Tok.lparen := by
  cases o <;> simp [Opr.tok]

theorem opr_tok_ne_rparen (o : Opr) : o.tok ≠ Tok.rparen := by
  cases o <;> simp [Opr.tok]

theorem tokens_ne_nil (s : Step) : s.tokens ≠ [] := by
  cases s with
  | num v => simp [Step.tokens]
  | node v l o r =>
    intro h
    have hlen := congrArg List.length h
    simp [Step.tokens] at hlen

theorem tokens_head_ne_rparen : ∀ s : Step, s.tokens.head? ≠ some Tok.rparen := by
  intro s
  induction s with
  | num v => simp [Step.tokens]
  | node v l o r ihl ihr =>
    by_cases hpl : Step.parenLeft l o
    · simp [Step.tokens, hpl]
    · rcases hex : l.tokens with _ | ⟨t, ts⟩
      · exact absurd hex (tokens_ne_nil l)
      · rw [hex] at ihl
        simp only [List.head?_cons, ne_eq, Option.some.injEq] at ihl
        simp [Step.tokens, hpl, hex, ihl]

theorem tokens_getLast_ne_lparen : ∀ s : Step, s.tokens.getLast? ≠ some Tok.lparen := by
  intro s
  induction s with
  | num v => simp [Step.tokens]
  | node v l o r ihl ihr =>
    by_cases hpr : Step.parenRight o r
    · simp [Step.tokens, hpr]
      rw [show (Tok.lparen :: (r.tokens ++ [Tok.rparen]) : List Tok)
        = (Tok.lparen :: r.tokens) ++ [Tok.rparen] from rfl, getLast_snoc]
      simp
    · have hne := tokens_ne_nil r
      rw [show (Step.node v l o r).tokens =
        ((if Step.parenLeft l o then [Tok.lparen] ++ l.tokens ++ [Tok.rparen]
          else l.tokens) ++ [o.tok]) ++ r.tokens by simp [Step.tokens, hpr]]
      rw [List.getLast?_append]
      rcases hex : r.tokens.getLast? with _ | t
      · exact absurd (List.getLast?_eq_none_iff.mp hex) hne
      · rw [hex] at ihr
        simp [Option.or, ihr]

/-- Printing the token string of a step reproduces its rendered string
exactly. -/
theorem render_data : ∀ s : Step, s.render.data = joinTokens s.tokens := by
  have part_facts : ∀ (s : Step) (c : Bool), s.render.data = joinTokens s.tokens →
      ((if c then "(" ++ s.render ++ ")" else s.render).data =
        joinTokens (if c then [Tok.lparen] ++ s.tokens ++ [Tok.rparen] else s.tokens)) ∧
      (if c then ([Tok.lparen] ++ s.tokens ++ [Tok.rparen] : List Tok)
        else s.tokens) ≠ [] ∧
      (if c then ([Tok.lparen] ++ s.tokens ++ [Tok.rparen] : List Tok)
        else s.tokens).head? ≠ some Tok.rparen ∧
      (if c then ([Tok.lparen] ++ s.tokens ++ [Tok.rparen] : List Tok)
        else s.tokens).getLast? ≠ some Tok.lparen := by
    intro s c ih
    cases c with
    | false =>
      simp only [if_neg Bool.false_ne_true]
      exact ⟨ih, tokens_ne_nil s, tokens_head_ne_rparen s, tokens_getLast_ne_lparen s⟩
    | true =>
      refine ⟨?_, ?_, ?_, ?_⟩
      · show ("(" ++ s.render ++ ")").data =
          joinTokens ([Tok.lparen] ++ s.tokens ++ [Tok.rparen])
        rw [joinTokens_wrapped s.tokens (tokens_ne_nil s), ← ih,
          String.data_append, String.data_append]
        rfl
      · show ([Tok.lparen] ++ s.tokens ++ [Tok.rparen] : List Tok) ≠ []
        simp
      · show ([Tok.lparen] ++ s.tokens ++ [Tok.rparen] : List Tok).head? ≠ some Tok.rparen
        simp
      · show ([Tok.lparen] ++ s.tokens ++ [Tok.rparen] : List Tok).getLast? ≠ some Tok.lparen
        rw [show ([Tok.lparen] ++ s.tokens ++ [Tok.rparen] : List Tok)
          = (Tok.lparen :: s.tokens) ++ [Tok.rparen] from rfl, getLast_snoc]
        simp
  intro s
  induction s with
  | num v => rfl
  | node v l o r ihl ihr =>
    obtain ⟨hdata_l, hne_l, hhead_l, hlast_l⟩ := part_facts l (Step.parenLeft l o) ihl
    obtain ⟨hdata_r, hne_r, hhead_r, hlast_r⟩ := part_facts r (Step.parenRight o r) ihr
    have hrend : (Step.node v l o r).render =
        (if Step.parenLeft l o then "(" ++ l.render ++ ")" else l.render) ++ " " ++
        o.glyph ++ " " ++
        (if Step.parenRight o r then "(" ++ r.render ++ ")" else r.render) := rfl
    have htoks : (Step.node v l o r).tokens =
        ((if Step.parenLeft l o then [Tok.lparen] ++ l.tokens ++ [Tok.rparen]
          else l.tokens) ++ [o.tok]) ++
        (if Step.parenRight o r then [Tok.lparen] ++ r.tokens ++ [Tok.rparen]
          else r.tokens) := rfl
    rw [hrend, htoks]
    rw [joinTokens_append _ _ (by simp [hne_l]) hne_r]
    rw [joinTokens_append _ [o.tok] hne_l (by simp)]
    have hsep1 : ¬(((if Step.parenLeft l o then [Tok.lparen] ++ l.tokens ++ [Tok.rparen]
        else l.tokens) ++ [o.tok]).getLast? = some Tok.lparen ∨
        (if Step.parenRight o r then [Tok.lparen] ++ r.tokens ++ [Tok.rparen]
        else r.tokens).head? = some Tok.rparen) := by
      rintro (h | h)
      · rw [getLast_snoc] at h
        exact opr_tok_ne_lparen o (Option.some.inj h)
      · exact hhead_r h
    have hsep2 : ¬((if Step.parenLeft l o then [Tok.lparen] ++ l.tokens ++ [Tok.rparen]
        else l.tokens).getLast? = some Tok.lparen ∨
        ([o.tok] : List Tok).head? = some Tok.rparen) := by
      rintro (h | h)
      · exact hlast_l h
      · simp only [List.head?_cons, Option.some.injEq] at h
        exact opr_tok_ne_rparen o h
    rw [if_neg hsep1, if_neg hsep2]
    rw [← hdata_l, ← hdata_r]
    rw [show joinTokens [o.tok] = tokChars o.tok from rfl]
    rw [show tokChars o.tok = o.glyph.data from by cases o <;> rfl]
    simp only [String.data_append, List.append_assoc,
      show (" " : String).data = [' '] from rfl]

end Numble

namespace Numble

/-! ### Facts about `solve_puzzle`'s returned step -/

theorem allValid_map_num {numbers : List ℤ} (hpos : ∀ n ∈ numbers, 0 < n) :
    AllValid (numbers.map Step.num) := by
  intro s hs
  rcases List.mem_map.mp hs with ⟨n, hn, rfl⟩
  exact hpos n hn

/-- The step `solve_puzzle` returns is the bare target or a valid
recorded solution whose value is the target. -/
theorem solvePuzzle_some {t : ℤ} {numbers : List ℤ} {s : Step}
    (hpos : ∀ n ∈ numbers, 0 < n) (hs : solvePuzzle t numbers = some s) :
    s = .num t ∨ (Valid s ∧ s.value = t) := by
  unfold solvePuzzle at hs
  by_cases ht : t ∈ numbers
  · rw [if_pos ht] at hs
    simp only [Option.some.injEq] at hs
    exact Or.inl hs.symm
  · rw [if_neg ht] at hs
    cases hsr : sortResults (solveTop t (numbers.map Step.num)) with
    | nil =>
      rw [hsr] at hs
      exact absurd hs (by simp)
    | cons s0 rest =>
      rw [hsr] at hs
      simp only [List.head?_cons, Option.some.injEq] at hs
      subst hs
      have hmem : s0 ∈ solveTop t (numbers.map Step.num) := by
        have h1 : s0 ∈ sortResults (solveTop t (numbers.map Step.num)) := by
          rw [hsr]
          simp
        exact (sortResults_perm _).mem_iff.mp h1
      exact Or.inr (solveFuel_valid (allValid_map_num hpos) hmem)

/-! ## The claims -/

/-- C1: for every input of positive integers on which the solver
returns a solution, the rendered string is exactly the printed token
string, and evaluating that token string under standard operator
precedence (`×`/`÷` binding tighter than `+`/`-`, left-associative, `÷`
exact integer division) yields exactly the target value. -/
theorem claim1_solution_evaluates_to_target (target : ℤ) (numbers : List ℤ)
    (hpos : ∀ n ∈ numbers, 0 < n) (s : Step)
    (hs : solvePuzzle target numbers = some s) :
    s.render.data = joinTokens s.tokens ∧ evalToks s.tokens = some target := by
  refine ⟨render_data s, ?_⟩
  rcases solvePuzzle_some hpos hs with rfl | ⟨hv, hval⟩
  · rfl
  · rw [evalToks_tokens hv, hval]

/-- Witness for C1 at target `80`, numbers `[5, 75]`: the solver returns
`75 + 5`, its rendered string prints its tokens, and those tokens
evaluate to `80`. -/
theorem claim1_witness :
    (∀ n ∈ [(5 : ℤ), 75], 0 < n) ∧
      ((Step.node 80 (.num 75) .add (.num 5)).render.data =
        joinTokens (Step.node 80 (.num 75) .add (.num 5)).tokens ∧
      evalToks (Step.node 80 (.num 75) .add (.num 5)).tokens = some 80) :=
  ⟨by decide, claim1_solution_evaluates_to_target 80 [5, 75] (by decide)
    (Step.node 80 (.num 75) .add (.num 5)) (by decide)⟩

/-- C2 counterexample: the engine does not recurse into the reduced
multiset for a candidate whose value equals the target.  At target `2`
with numbers `[1, 1, 4]` the spec-modelled always-recurse engine finds
`4 - (1 + 1)` (reachable only through the matching intermediate
`1 + 1`), but the code's engine does not, so the two engines differ and
the reachable space is not fully explored. -/
theorem claim2_counterexample :
    solveTop 2 [Step.num 1, Step.num 1, Step.num 4] ≠
      solveSpecTop 2 [Step.num 1, Step.num 1, Step.num 4] ∧
    Step.node 2 (.num 4) .sub (.node 2 (.num 1) .add (.num 1)) ∈
      solveSpecTop 2 [Step.num 1, Step.num 1, Step.num 4] ∧
    Step.node 2 (.num 4) .sub (.node 2 (.num 1) .add (.num 1)) ∉
      solveTop 2 [Step.num 1, Step.num 1, Step.num 4] := by
  decide

/-- C2 as amended: the loop records every matching candidate (it does
not stop at the first hit), and recurses into the reduced multiset for
every candidate whose value differs from the target — a matching
candidate's own branch is the only one not explored further. -/
theorem claim2_amended (t : ℤ) (ns : List Step) (c : Step) (hc : c ∈ operations ns) :
    (c.value = t → c ∈ solveTop t ns) ∧
    (c.value ≠ t → ∀ v l o r, c = .node v l o r →
      ∀ x ∈ solveTop t (reduce ns l r c), x ∈ solveTop t ns) := by
  have h2 := two_le_of_mem_operations hc
  have hsucc : ns.length = (ns.length - 1) + 1 := by omega
  constructor
  · intro hv
    show c ∈ solveFuel ns.length t ns []
    rw [hsucc, solveFuel_succ]
    exact solveGo_mem_match hv (operations ns) [] operations_internal hc
  · intro hv v l o r hceq x hx
    rcases operations_shape hc with ⟨v', l', o', r', hceq', rest, hdec⟩
    rw [hceq] at hceq'
    injection hceq' with e1 e2 e3 e4
    subst e1
    subst e2
    subst e3
    subst e4
    subst hceq
    have hrlen : (reduce ns l r (.node v l o r)).length = ns.length - 1 :=
      reduce_length rfl hdec
    have hx' : x ∈ solveFuel (ns.length - 1) t (reduce ns l r (.node v l o r)) [] := by
      rw [show solveTop t (reduce ns l r (.node v l o r)) =
        solveFuel (ns.length - 1) t (reduce ns l r (.node v l o r)) []
        from by rw [solveTop, hrlen]] at hx
      exact hx
    show x ∈ solveFuel ns.length t ns []
    rw [hsucc, solveFuel_succ]
    exact solveGo_sub_incl hv hx' (operations ns) [] operations_internal hc

/-- Witness for C2's amended claim: at target `80` over `[5, 75]` the
matching candidate `75 + 5` is recorded in the search's result set. -/
theorem claim2_amended_witness :
    Step.node 80 (.num 75) .add (.num 5) ∈ solveTop 80 [Step.num 5, Step.num 75] :=
  (claim2_amended 80 [Step.num 5, Step.num 75]
    (Step.node 80 (.num 75) .add (.num 5)) (by decide)).1 (by decide)

/-- Lexicographic (code-point) comparison of two character strings, as
Python compares strings. -/
def strLtB : List Char → List Char → Bool
  | [], [] => false
  | [], _ :: _ => true
  | _ :: _, [] => false
  | c1 :: t1, c2 :: t2 => c1.val < c2.val || (c1 = c2 && strLtB t1 t2)

/-- Modelled from the spec: the §4.2 total order, comparing value
ascending, then size ascending, then the operator-profile 4-tuple
lexicographically, then — as a final deterministic tie-break — the
rendered string lexicographically.  (This fourth level names what is
missing from the code: `Step.__lt__` has no string comparison.) -/
def specLt (a b : Step) : Bool :=
  if a.value ≠ b.value then a.value < b.value
  else if a.len ≠ b.len then a.len < b.len
  else if a.operationsProfile ≠ b.operationsProfile then
    Step.tupLt a.operationsProfile b.operationsProfile
  else strLtB a.render.data b.render.data

/-- C3 counterexample: `4 + 2` and `5 + 1` (value `6`, size `2`, equal
operator profiles) are ordered by the spec's rendered-string tie-break
(`"4 + 2" < "5 + 1"`), but `Step.__lt__` leaves them incomparable: the
code's order has no fourth comparison level. -/
theorem claim3_counterexample :
    Step.lt (Step.node 6 (.num 4) .add (.num 2)) (Step.node 6 (.num 5) .add (.num 1))
      = false ∧
    specLt (Step.node 6 (.num 4) .add (.num 2)) (Step.node 6 (.num 5) .add (.num 1))
      = true := by
  decide

/-- C3 as amended: the order compares, in priority order, value
ascending, then size (leaf count) ascending, then the operator-profile
4-tuple `(divisions, multiplications, subtractions, additions)`
lexicographically — and nothing further: two steps neither of which is
below the other agree on all three keys (no rendered-string
tie-break exists, so such distinct steps are simply incomparable). -/
theorem claim3_amended (a b : Step) :
    (Step.lt a b = true ↔
      a.value < b.value ∨ (a.value = b.value ∧ (a.len < b.len ∨ (a.len = b.len ∧
        Step.tupLt a.operationsProfile b.operationsProfile = true)))) ∧
    (Step.lt a b = false → Step.lt b a = false →
      a.value = b.value ∧ a.len = b.len ∧
        a.operationsProfile = b.operationsProfile) :=
  ⟨Step.lt_iff a b, fun h1 h2 => Step.lt_connected h1 h2⟩

/-- Witness for C3's amended claim at the concrete incomparable pair
`5 + 1` and `4 + 2`. -/
theorem claim3_amended_witness :
    (Step.node 6 (.num 5) .add (.num 1)).value = (Step.node 6 (.num 4) .add (.num 2)).value ∧
    (Step.node 6 (.num 5) .add (.num 1)).len = (Step.node 6 (.num 4) .add (.num 2)).len ∧
    (Step.node 6 (.num 5) .add (.num 1)).operationsProfile
      = (Step.node 6 (.num 4) .add (.num 2)).operationsProfile :=
  (claim3_amended (Step.node 6 (.num 5) .add (.num 1))
    (Step.node 6 (.num 4) .add (.num 2))).2 (by decide) (by decide)

/-- C4: every internal node ever constructed during generation and
search satisfies `value = apply(operator, left.value, right.value)`
exactly, recursively down to the leaves: from a value-consistent
working list, every step the generator yields is value-consistent, and
so is every step any search call records (whatever its fuel,
accumulator, or recursion level). -/
theorem claim4_value_consistency (f : ℕ) (t : ℤ) (ns res : List Step)
    (hns : ∀ s ∈ ns, Consistent s) (hres : ∀ s ∈ res, Consistent s) :
    (∀ c ∈ operations ns, Consistent c) ∧
    (∀ x ∈ solveFuel f t ns res, Consistent x) := by
  refine ⟨operations_consistent hns, fun x hx => ?_⟩
  rcases solveFuel_inv Consistent (fun _ h => operations_consistent h) f t ns res x hns hx
    with h | h
  · exact hres x h
  · exact h.1

/-- Witness for C4 over the working list `[5, 75]` at target `80`. -/
theorem claim4_witness :
    (∀ c ∈ operations [Step.num 5, Step.num 75], Consistent c) ∧
    (∀ x ∈ solveFuel 2 80 [Step.num 5, Step.num 75] [], Consistent x) :=
  claim4_value_consistency 2 80 [Step.num 5, Step.num 75] [] (by decide) (by decide)

/-- C5: the generator yields exactly an addition for every pair of
entries at two distinct positions (earlier entry on the left); a
multiplication for every such pair where neither value is `1`; a
subtraction for every ordered pair of distinct entries (either relative
position) with `left.value > right.value`; and a division for every
ordered pair of distinct entries with `right.value ≠ 1` and
`left.value` exactly divisible by `right.value` with zero remainder. -/
theorem claim5_generator_exact (ns : List Step) (c : Step) :
    c ∈ operations ns ↔
      (∃ a b l1 l2 l3, ns = l1 ++ a :: (l2 ++ b :: l3) ∧
        (c = Step.addStep a b ∨
          ((a.value ≠ 1 ∧ b.value ≠ 1) ∧ c = Step.mulStep a b))) ∨
      (∃ a b l1 l2 l3,
        (ns = l1 ++ a :: (l2 ++ b :: l3) ∨ ns = l1 ++ b :: (l2 ++ a :: l3)) ∧
        ((b.value < a.value ∧ c = Step.subStep a b) ∨
          ((b.value ≠ 1 ∧ Int.fmod a.value b.value = 0) ∧ c = Step.divStep a b))) := by
  rw [mem_operations]
  constructor
  · rintro (⟨⟨a, b⟩, hp, hc⟩ | ⟨⟨a, b⟩, hp, hc⟩)
    · rcases (mem_combinations2 _ _ _).mp hp with ⟨l1, l2, l3, rfl⟩
      exact Or.inl ⟨a, b, l1, l2, l3, rfl, hc⟩
    · rcases (mem_permutations2 _ _ _).mp hp with h | h
      · rcases h with ⟨l1, l2, l3, rfl⟩
        exact Or.inr ⟨a, b, l1, l2, l3, Or.inl rfl, hc⟩
      · rcases h with ⟨l1, l2, l3, rfl⟩
        exact Or.inr ⟨a, b, l1, l2, l3, Or.inr rfl, hc⟩
  · rintro (⟨a, b, l1, l2, l3, rfl, hc⟩ | ⟨a, b, l1, l2, l3, hsplit, hc⟩)
    · exact Or.inl ⟨(a, b), (mem_combinations2 _ _ _).mpr ⟨l1, l2, l3, rfl⟩, hc⟩
    · refine Or.inr ⟨(a, b), (mem_permutations2 _ _ _).mpr ?_, hc⟩
      rcases hsplit with rfl | rfl
      · exact Or.inl ⟨l1, l2, l3, rfl⟩
      · exact Or.inr ⟨l1, l2, l3, rfl⟩

/-- C6 counterexample: from the two distinct, order-incomparable
operands `5 + 1` and `4 + 2` (equal value, size, and operator profile),
commutative construction in the two operand orders yields structurally
different nodes — `_normalize` swaps only when `left < right`, and
neither operand is below the other. -/
theorem claim6_counterexample :
    Step.addStep (Step.node 6 (.num 5) .add (.num 1)) (Step.node 6 (.num 4) .add (.num 2)) ≠
      Step.addStep (Step.node 6 (.num 4) .add (.num 2)) (Step.node 6 (.num 5) .add (.num 1))
    := by
  decide

/-- C6 as amended: commutative construction swaps the children when
`left < right`, so the left child of the result is never strictly below
the right child; and when the two operands are comparable under the
order (or structurally equal), building in either operand order yields
structurally identical nodes.  (For distinct incomparable operands the
two orders differ, as the counterexample shows.) -/
theorem claim6_amended (a b : Step)
    (h : Step.lt a b = true ∨ Step.lt b a = true ∨ a = b) :
    Step.addStep a b = Step.addStep b a ∧ Step.mulStep a b = Step.mulStep b a ∧
    (∃ v l r, Step.addStep a b = .node v l .add r ∧ Step.lt l r = false) ∧
    (∃ v l r, Step.mulStep a b = .node v l .mul r ∧ Step.lt l r = false) := by
  rcases h with hab | hba | rfl
  · have hba' : Step.lt b a = false := Step.lt_asymm hab
    have e1 : Step.addStep a b = .node (a.value + b.value) b .add a := by
      unfold Step.addStep Step.make
      rw [if_pos ⟨Or.inl rfl, hab⟩]
    have e2 : Step.addStep b a = .node (b.value + a.value) b .add a := by
      unfold Step.addStep Step.make
      rw [if_neg]
      rintro ⟨-, hc⟩
      rw [hba'] at hc
      exact Bool.noConfusion hc
    have e3 : Step.mulStep a b = .node (a.value * b.value) b .mul a := by
      unfold Step.mulStep Step.make
      rw [if_pos ⟨Or.inr rfl, hab⟩]
    have e4 : Step.mulStep b a = .node (b.value * a.value) b .mul a := by
      unfold Step.mulStep Step.make
      rw [if_neg]
      rintro ⟨-, hc⟩
      rw [hba'] at hc
      exact Bool.noConfusion hc
    exact ⟨by rw [e1, e2, add_comm], by rw [e3, e4, mul_comm],
      ⟨_, b, a, e1, hba'⟩, ⟨_, b, a, e3, hba'⟩⟩
  · have hab' : Step.lt a b = false := Step.lt_asymm hba
    have e1 : Step.addStep a b = .node (a.value + b.value) a .add b := by
      unfold Step.addStep Step.make
      rw [if_neg]
      rintro ⟨-, hc⟩
      rw [hab'] at hc
      exact Bool.noConfusion hc
    have e2 : Step.addStep b a = .node (b.value + a.value) a .add b := by
      unfold Step.addStep Step.make
      rw [if_pos ⟨Or.inl rfl, hba⟩]
    have e3 : Step.mulStep a b = .node (a.value * b.value) a .mul b := by
      unfold Step.mulStep Step.make
      rw [if_neg]
      rintro ⟨-, hc⟩
      rw [hab'] at hc
      exact Bool.noConfusion hc
    have e4 : Step.mulStep b a = .node (b.value * a.value) a .mul b := by
      unfold Step.mulStep Step.make
      rw [if_pos ⟨Or.inr rfl, hba⟩]
    exact ⟨by rw [e1, e2, add_comm], by rw [e3, e4, mul_comm],
      ⟨_, a, b, e1, hab'⟩, ⟨_, a, b, e3, hab'⟩⟩
  · have hirr : Step.lt a a = false := Step.lt_irrefl a
    have e1 : Step.addStep a a = .node (a.value + a.value) a .add a := by
      unfold Step.addStep Step.make
      split <;> rfl
    have e3 : Step.mulStep a a = .node (a.value * a.value) a .mul a := by
      unfold Step.mulStep Step.make
      split <;> rfl
    exact ⟨rfl, rfl, ⟨_, a, a, e1, hirr⟩, ⟨_, a, a, e3, hirr⟩⟩

/-- Witness for C6's amended claim at the comparable operands `2` and
`3`. -/
theorem claim6_amended_witness :
    Step.addStep (.num 2) (.num 3) = Step.addStep (.num 3) (.num 2) ∧
    Step.mulStep (.num 2) (.num 3) = Step.mulStep (.num 3) (.num 2) ∧
    (∃ v l r, Step.addStep (.num 2) (.num 3) = .node v l .add r ∧ Step.lt l r = false) ∧
    (∃ v l r, Step.mulStep (.num 2) (.num 3) = .node v l .mul r ∧ Step.lt l r = false) :=
  claim6_amended (.num 2) (.num 3) (by decide)

/-- C7 counterexample: at target `6` over `[5, 1, 4, 2]` the result set
holds two distinct minimal solutions (`5 + 1` and `4 + 2`, equal under
every comparison level of `Step.__lt__`); the solver returns `5 + 1`,
which is not strictly below the other, so there is no "single node
minimal under the total order" as claimed. -/
theorem claim7_counterexample :
    solvePuzzle 6 [5, 1, 4, 2] = some (Step.node 6 (.num 5) .add (.num 1)) ∧
    Step.node 6 (.num 4) .add (.num 2) ∈
      solveTop 6 [Step.num 5, Step.num 1, Step.num 4, Step.num 2] ∧
    Step.node 6 (.num 4) .add (.num 2) ≠ Step.node 6 (.num 5) .add (.num 1) ∧
    Step.lt (Step.node 6 (.num 5) .add (.num 1)) (Step.node 6 (.num 4) .add (.num 2))
      = false := by
  set_option maxRecDepth 100000 in decide

/-- C7 as amended: when the target is not an input number, an empty
result set makes the solver return `None` (no exception — the embedding
is total), and any returned step is a recorded solution no recorded
solution is strictly below under `Step.__lt__` (a minimal node, though
not necessarily a unique one). -/
theorem claim7_amended (t : ℤ) (numbers : List ℤ) (h : t ∉ numbers) :
    (solveTop t (numbers.map Step.num) = [] → solvePuzzle t numbers = none) ∧
    (∀ s, solvePuzzle t numbers = some s →
      s ∈ solveTop t (numbers.map Step.num) ∧
      ∀ x ∈ solveTop t (numbers.map Step.num), Step.lt x s = false) := by
  constructor
  · intro hR
    unfold solvePuzzle
    rw [if_neg h, hR]
    rfl
  · intro s hs
    unfold solvePuzzle at hs
    rw [if_neg h] at hs
    cases hsr : sortResults (solveTop t (numbers.map Step.num)) with
    | nil =>
      rw [hsr] at hs
      exact absurd hs (by simp)
    | cons s0 rest =>
      rw [hsr] at hs
      simp only [List.head?_cons, Option.some.injEq] at hs
      subst hs
      constructor
      · have h1 : s0 ∈ sortResults (solveTop t (numbers.map Step.num)) := by
          rw [hsr]
          simp
        exact (sortResults_perm _).mem_iff.mp h1
      · exact sortResults_head_min hsr

/-- Witness for C7's amended claim at target `80` over `[5, 75]`. -/
theorem claim7_amended_witness :
    Step.node 80 (.num 75) .add (.num 5) ∈
      solveTop 80 (([5, 75] : List ℤ).map Step.num) ∧
    ∀ x ∈ solveTop 80 (([5, 75] : List ℤ).map Step.num),
      Step.lt x (Step.node 80 (.num 75) .add (.num 5)) = false :=
  (claim7_amended 80 [5, 75] (by decide)).2
    (Step.node 80 (.num 75) .add (.num 5)) (by decide)

/-- C8: from a valid (in particular positive-valued) working list, no
generated step ever has value zero and every generated step is internal
(so the invalid-replacement `ValueError` branch of `solve` is
unreachable); every right-hand operand of the generator's `%` and `//`
is nonzero; and validity carries over to the reduced list of every
branch, so all of this holds at every recursion level. -/
theorem claim8_no_runtime_errors (ns : List Step) (hv : AllValid ns) :
    (∀ c ∈ operations ns, 0 < c.value ∧ ∃ v l o r, c = .node v l o r) ∧
    (∀ p ∈ permutations2 ns, p.2.value ≠ 0) ∧
    (∀ v l o r, Step.node v l o r ∈ operations ns →
      AllValid (reduce ns l r (.node v l o r))) := by
  refine ⟨fun c hc => ⟨(operations_valid hv c hc).pos, ?_⟩, ?_, ?_⟩
  · rcases operations_shape hc with ⟨v, l, o, r, rfl, -⟩
    exact ⟨v, l, o, r, rfl⟩
  · rintro ⟨a, b⟩ hp
    exact ne_of_gt (hv b (perm2_mem hp).2).pos
  · intro v l o r hc s hs
    rcases mem_reduce hs with hs2 | rfl
    · exact hv s hs2
    · exact operations_valid hv _ hc

/-- Witness for C8 on the valid working list `[5, 75]`. -/
theorem claim8_witness :
    (∀ c ∈ operations [Step.num 5, Step.num 75],
      0 < c.value ∧ ∃ v l o r, c = .node v l o r) ∧
    (∀ p ∈ permutations2 [Step.num 5, Step.num 75], p.2.value ≠ 0) ∧
    (∀ v l o r, Step.node v l o r ∈ operations [Step.num 5, Step.num 75] →
      AllValid (reduce [Step.num 5, Step.num 75] l r (.node v l o r))) :=
  claim8_no_runtime_errors [Step.num 5, Step.num 75]
    (by intro s hs; fin_cases hs <;> decide)

/-- C9 counterexample: at target `2` over `[1, 1]` the only candidates
are the matching `1 + 1` (recorded, not recursed) — multiplication,
subtraction and division are all filtered out — so the recursion depth
is `0`, not `n - 1 = 1`: the depth is not "exactly `n - 1`". -/
theorem claim9_counterexample :
    ¬(depthFuel ([Step.num 1, Step.num 1] : List Step).length 2 [Step.num 1, Step.num 1]
      = ([Step.num 1, Step.num 1] : List Step).length - 1) := by
  decide

/-- C9 as amended: the search always terminates — once the fuel covers
the list length the result is fuel-independent, because every
combination strictly reduces the working multiset by exactly one entry
— and for `n` input numbers the recursion depth is at most (not
exactly) `n - 1`. -/
theorem claim9_amended (f : ℕ) (t : ℤ) (ns res : List Step) (hf : ns.length ≤ f + 1) :
    solveFuel f t ns res = solveFuel (f + 1) t ns res ∧
    depthFuel f t ns ≤ ns.length - 1 ∧
    (∀ v l o r, Step.node v l o r ∈ operations ns →
      (reduce ns l r (.node v l o r)).length = ns.length - 1) := by
  refine ⟨solveFuel_adequate f t ns res hf, depthFuel_le f t ns, ?_⟩
  intro v l o r hc
  rcases operations_shape hc with ⟨v', l', o', r', he, rest, hdec⟩
  injection he with e1 e2 e3 e4
  subst e1
  subst e2
  subst e3
  subst e4
  exact reduce_length rfl hdec

/-- Witness for C9's amended claim at fuel `2`, target `80`, numbers
`[5, 75]`. -/
theorem claim9_amended_witness :
    solveFuel 2 80 [Step.num 5, Step.num 75] [] =
      solveFuel 3 80 [Step.num 5, Step.num 75] [] ∧
    depthFuel 2 80 [Step.num 5, Step.num 75] ≤
      ([Step.num 5, Step.num 75] : List Step).length - 1 ∧
    (∀ v l o r, Step.node v l o r ∈ operations [Step.num 5, Step.num 75] →
      (reduce [Step.num 5, Step.num 75] l r (.node v l o r)).length =
        ([Step.num 5, Step.num 75] : List Step).length - 1) :=
  claim9_amended 2 80 [Step.num 5, Step.num 75] [] (by decide)

/-- C10: each candidate's reduced list removes exactly the candidate's
two child entries from the working list (each one distinct entry — the
appended candidate itself is never removed, its leaf count being
larger) and appends the single new node: as multisets,
`reduce = candidate ::ₘ (working - left - right)`, and the length drops
by exactly one. -/
theorem claim10_reduced_multiset (ns : List Step) (c : Step) (hc : c ∈ operations ns) :
    ∃ v l o r, c = .node v l o r ∧ l ≠ c ∧ r ≠ c ∧
      ∃ rest : Multiset Step, (ns : Multiset Step) = l ::ₘ r ::ₘ rest ∧
        ((reduce ns l r c : List Step) : Multiset Step) = c ::ₘ rest ∧
        (reduce ns l r c).length = ns.length - 1 := by
  rcases operations_shape hc with ⟨v, l, o, r, rfl, rest, hdec⟩
  obtain ⟨hl, hr⟩ := operations_child_ne (rfl : Step.node v l o r = .node v l o r)
  exact ⟨v, l, o, r, rfl, hl, hr, rest, hdec, reduce_multiset rfl hdec,
    reduce_length rfl hdec⟩

/-- Witness for C10 at the candidate `75 + 5` over `[5, 75]`. -/
theorem claim10_witness :
    ∃ v l o r, Step.node 80 (.num 75) .add (.num 5) = Step.node v l o r ∧
      l ≠ Step.node 80 (.num 75) .add (.num 5) ∧
      r ≠ Step.node 80 (.num 75) .add (.num 5) ∧
      ∃ rest : Multiset Step,
        (([Step.num 5, Step.num 75] : List Step) : Multiset Step) = l ::ₘ r ::ₘ rest ∧
        ((reduce [Step.num 5, Step.num 75] l r (Step.node 80 (.num 75) .add (.num 5)) :
          List Step) : Multiset Step) = Step.node 80 (.num 75) .add (.num 5) ::ₘ rest ∧
        (reduce [Step.num 5, Step.num 75] l r
          (Step.node 80 (.num 75) .add (.num 5))).length =
          ([Step.num 5, Step.num 75] : List Step).length - 1 :=
  claim10_reduced_multiset [Step.num 5, Step.num 75]
    (Step.node 80 (.num 75) .add (.num 5)) (by decide)

end Numble
